import Mathlib

/-!
Shallow embedding of the primary consensus core of the SailfishTest
repository (`src/primary/src/aggregators.rs`, `src/primary/src/messages.rs`,
`src/primary/src/synchronizer.rs`) together with theorems checking the
natural-language specification against that code.

Machine integers of the source are modelled as `Nat` with explicit masking
where overflow or bit width matters (the `u128` bitmap words); byte strings
are `List UInt8`; fallible code returns `Except`; code that can panic
returns `Option`.
-/

/-! ## Byte-level preliminaries -/

/-- Little-endian serialization of a natural number into `w` bytes, as done by
Rust's `u64::to_le_bytes` / `u32::to_le_bytes` (with `w = 8`, resp. `4`). -/
def toLeBytes (w : Nat) (x : Nat) : List UInt8 :=
  (List.range w).map fun i => UInt8.ofNat (x / 2 ^ (8 * i) % 256)

/-- Big-endian serialization of a natural number into `w` bytes. -/
def toBeBytes (w : Nat) (x : Nat) : List UInt8 :=
  (List.range w).map fun i => UInt8.ofNat (x / 2 ^ (8 * (w - 1 - i)) % 256)

/-- Fuelled worker for `chunksOf`; the fuel is an upper bound on the number of
chunks, making the recursion structural (hence kernel-reducible). -/
def chunksOfAux : Nat → Nat → List UInt8 → List (List UInt8)
  | 0, _, _ => []
  | _ + 1, _, [] => []
  | fuel + 1, n, l => l.take n :: chunksOfAux fuel n (l.drop n)

/-- Split a list into consecutive chunks of `n` elements (the final chunk may
be shorter); used to cut a byte string into SHA-512 blocks and words. -/
def chunksOf (n : Nat) (l : List UInt8) : List (List UInt8) :=
  if n = 0 then [] else chunksOfAux l.length n l

/-! ## SHA-512 (FIPS 180-4), used by `Hash for Header` in
`src/primary/src/messages.rs` via the `ed25519_dalek::Sha512` re-export. -/

/-- The eight SHA-512 initial hash values (FIPS 180-4 §5.3.5). -/
def sha512H0 : List UInt64 :=
  [0x6A09E667F3BCC908, 0xBB67AE8584CAA73B, 0x3C6EF372FE94F82B,
   0xA54FF53A5F1D36F1, 0x510E527FADE682D1, 0x9B05688C2B3E6C1F,
   0x1F83D9ABFB41BD6B, 0x5BE0CD19137E2179]

/-- The eighty SHA-512 round constants (FIPS 180-4 §4.2.3). -/
def sha512K : List UInt64 :=
  [0x428A2F98D728AE22, 0x7137449123EF65CD, 0xB5C0FBCFEC4D3B2F, 0xE9B5DBA58189DBBC, 0x3956C25BF348B538,
   0x59F111F1B605D019, 0x923F82A4AF194F9B, 0xAB1C5ED5DA6D8118, 0xD807AA98A3030242, 0x12835B0145706FBE,
   0x243185BE4EE4B28C, 0x550C7DC3D5FFB4E2, 0x72BE5D74F27B896F, 0x80DEB1FE3B1696B1, 0x9BDC06A725C71235,
   0xC19BF174CF692694, 0xE49B69C19EF14AD2, 0xEFBE4786384F25E3, 0x0FC19DC68B8CD5B5, 0x240CA1CC77AC9C65,
   0x2DE92C6F592B0275, 0x4A7484AA6EA6E483, 0x5CB0A9DCBD41FBD4, 0x76F988DA831153B5, 0x983E5152EE66DFAB,
   0xA831C66D2DB43210, 0xB00327C898FB213F, 0xBF597FC7BEEF0EE4, 0xC6E00BF33DA88FC2, 0xD5A79147930AA725,
   0x06CA6351E003826F, 0x142929670A0E6E70, 0x27B70A8546D22FFC, 0x2E1B21385C26C926, 0x4D2C6DFC5AC42AED,
   0x53380D139D95B3DF, 0x650A73548BAF63DE, 0x766A0ABB3C77B2A8, 0x81C2C92E47EDAEE6, 0x92722C851482353B,
   0xA2BFE8A14CF10364, 0xA81A664BBC423001, 0xC24B8B70D0F89791, 0xC76C51A30654BE30, 0xD192E819D6EF5218,
   0xD69906245565A910, 0xF40E35855771202A, 0x106AA07032BBD1B8, 0x19A4C116B8D2D0C8, 0x1E376C085141AB53,
   0x2748774CDF8EEB99, 0x34B0BCB5E19B48A8, 0x391C0CB3C5C95A63, 0x4ED8AA4AE3418ACB, 0x5B9CCA4F7763E373,
   0x682E6FF3D6B2B8A3, 0x748F82EE5DEFB2FC, 0x78A5636F43172F60, 0x84C87814A1F0AB72, 0x8CC702081A6439EC,
   0x90BEFFFA23631E28, 0xA4506CEBDE82BDE9, 0xBEF9A3F7B2C67915, 0xC67178F2E372532B, 0xCA273ECEEA26619C,
   0xD186B8C721C0C207, 0xEADA7DD6CDE0EB1E, 0xF57D4F7FEE6ED178, 0x06F067AA72176FBA, 0x0A637DC5A2C898A6,
   0x113F9804BEF90DAE, 0x1B710B35131C471B, 0x28DB77F523047D84, 0x32CAAB7B40C72493, 0x3C9EBE0A15C9BEBC,
   0x431D67C49C100D4C, 0x4CC5D4BECB3E42B6, 0x597F299CFC657E2A, 0x5FCB6FAB3AD6FAEC, 0x6C44198C4A475817]

/-- Right rotation of a 64-bit word by `n < 64` positions. -/
def rotr64 (x : UInt64) (n : UInt64) : UInt64 := (x >>> n) ||| (x <<< (64 - n))

/-- SHA-512 `Ch` function. -/
def sha512Ch (x y z : UInt64) : UInt64 := (x &&& y) ^^^ (~~~x &&& z)

/-- SHA-512 `Maj` function. -/
def sha512Maj (x y z : UInt64) : UInt64 := (x &&& y) ^^^ (x &&& z) ^^^ (y &&& z)

/-- SHA-512 big sigma 0. -/
def bsig0 (x : UInt64) : UInt64 := rotr64 x 28 ^^^ rotr64 x 34 ^^^ rotr64 x 39

/-- SHA-512 big sigma 1. -/
def bsig1 (x : UInt64) : UInt64 := rotr64 x 14 ^^^ rotr64 x 18 ^^^ rotr64 x 41

/-- SHA-512 small sigma 0. -/
def ssig0 (x : UInt64) : UInt64 := rotr64 x 1 ^^^ rotr64 x 8 ^^^ (x >>> 7)

/-- SHA-512 small sigma 1. -/
def ssig1 (x : UInt64) : UInt64 := rotr64 x 19 ^^^ rotr64 x 61 ^^^ (x >>> 6)

/-- Interpret (up to) eight bytes as a big-endian 64-bit word. -/
def beWord (bs : List UInt8) : UInt64 :=
  bs.foldl (fun acc b => acc * 256 + b.toUInt64) 0

/-- Extend the sixteen block words by `n` further message-schedule words. -/
def sha512Extend : Nat → List UInt64 → List UInt64
  | 0, acc => acc
  | n + 1, acc =>
    let m := acc.length
    let next := ssig1 (acc.getD (m - 2) 0) + acc.getD (m - 7) 0 +
      ssig0 (acc.getD (m - 15) 0) + acc.getD (m - 16) 0
    sha512Extend n (acc ++ [next])

/-- One SHA-512 compression round acting on the state `[a,b,c,d,e,f,g,h]`. -/
def sha512Round (w : List UInt64) (st : List UInt64) (i : Nat) : List UInt64 :=
  match st with
  | [a, b, c, d, e, f, g, h] =>
    let t1 := h + bsig1 e + sha512Ch e f g + sha512K.getD i 0 + w.getD i 0
    let t2 := bsig0 a + sha512Maj a b c
    [t1 + t2, a, b, c, d + t1, e, f, g]
  | st => st

/-- Process one 128-byte block into the running hash state. -/
def sha512Compress (h : List UInt64) (block : List UInt8) : List UInt64 :=
  let w := sha512Extend 64 ((chunksOf 8 block).map beWord)
  let st := (List.range 80).foldl (sha512Round w) h
  (h.zip st).map fun p => p.1 + p.2

/-- SHA-512 padding: append `0x80`, zero bytes, and the 128-bit big-endian bit
length, reaching a multiple of 128 bytes. -/
def sha512Pad (msg : List UInt8) : List UInt8 :=
  msg ++ [0x80] ++ List.replicate ((128 - (msg.length + 17) % 128) % 128) 0 ++
    toBeBytes 16 (8 * msg.length)

/-- The SHA-512 hash of a byte string, as a 64-byte string. -/
def sha512 (msg : List UInt8) : List UInt8 :=
  (((chunksOf 128 (sha512Pad msg)).foldl sha512Compress sha512H0).map
    fun x => toBeBytes 8 x.toNat).flatten

/-! ## Core data types (`src/primary/src/messages.rs` and the `crypto` crate)

`PublicKey` and `Digest` are byte strings; BLS key shares and signature
shares (`blsttc` types, used only through equality, ordering and
aggregation) are modelled as `Nat`. -/

/-- An ed25519 public key, as its byte string. -/
abbrev PublicKey : Type := List UInt8

/-- A 32-byte digest, as its byte string. -/
abbrev Digest : Type := List UInt8

/-- The all-zero default of the `crypto` crate's 32-byte types (`#[derive(Default)]`
on a 32-byte array wrapper). -/
def zeroBytes32 : List UInt8 := List.replicate 32 0

/-- Rust `Digest::default()`: 32 zero bytes. -/
def Digest.defaultValue : Digest := zeroBytes32

/-- Rust `PublicKey::default()`: 32 zero bytes. -/
def PublicKey.defaultValue : PublicKey := zeroBytes32

/-- Worker identifier (`config::WorkerId`, a `u32`). -/
abbrev WorkerId := Nat

/-- Round number (`primary::Round`, a `u64`). -/
abbrev Round := Nat

/-- A `blsttc::PublicKeyShareG2`, abstracted to its canonical-ordering rank. -/
abbrev PublicKeyShareG2 := Nat

/-- A `blsttc::SignatureShareG1`, abstracted. -/
abbrev SignatureShareG1 := Nat

/-- An ed25519 `crypto::Signature`, abstracted. -/
abbrev Signature := Nat

/-- TimeoutCert as constructed by `TimeoutAggregator::append`
(`round` plus the collected `(author, signature)` pairs). -/
structure TimeoutCert where
  round : Round
  timeouts : List (PublicKey × Signature)
deriving DecidableEq

/-- NoVoteCert as constructed by `NoVoteAggregator::append`. -/
structure NoVoteCert where
  round : Round
  no_votes : List (PublicKey × Signature)
deriving DecidableEq

/-- Header of `src/primary/src/messages.rs`. The `payload` models the
`BTreeMap<Digest, WorkerId>` as its (key-sorted) association list and
`parents` models the `BTreeSet<Digest>` as its sorted element list. -/
structure Header where
  author : PublicKey
  round : Round
  payload : List (Digest × WorkerId)
  parents : List Digest
  id : Digest
  timeout_cert : TimeoutCert
  no_vote_cert : NoVoteCert
deriving DecidableEq

/-- Rust `Header::default()`. -/
def Header.defaultValue : Header :=
  ⟨PublicKey.defaultValue, 0, [], [], Digest.defaultValue, ⟨0, []⟩, ⟨0, []⟩⟩

/-- The byte string fed to the SHA-512 hasher by `impl Hash for Header`
(`messages.rs` lines 50-64): author bytes, little-endian round, each
`(payload digest, worker id)` pair in map order, each parent in set order. -/
def headerHashBytes (h : Header) : List UInt8 :=
  h.author ++ toLeBytes 8 h.round ++
    (h.payload.map fun p => p.1 ++ toLeBytes 4 p.2).flatten ++ h.parents.flatten

/-- Header digest: first 32 bytes of the SHA-512 hash of `headerHashBytes`. -/
def Header.digest (h : Header) : Digest := (sha512 (headerHashBytes h)).take 32

/-- Rust `Header::new` (`messages.rs` lines 25-47): build the template with a
default id, then set `id` to the template's digest. (The Rust function is
`async` but performs no suspension.) -/
def Header.new (author : PublicKey) (round : Round) (payload : List (Digest × WorkerId))
    (parents : List Digest) (timeout_cert : TimeoutCert) (no_vote_cert : NoVoteCert) : Header :=
  let header : Header :=
    ⟨author, round, payload, parents, Digest.defaultValue, timeout_cert, no_vote_cert⟩
  { header with id := header.digest }

/-- Vote (`messages.rs` lines 175-181). `VotesAggregator::append` additionally
reads a BLS signature share `vote.signature`, present in the crate version the
aggregator is written against; it is carried here as an extra field. -/
structure Vote where
  id : Digest
  round : Round
  origin : PublicKey
  author : PublicKey
  signature : SignatureShareG1

/-- Certificate in the form constructed by `VotesAggregator::append` and
consumed by `CertificatesAggregator::append` and `Synchronizer`
(`header_id`, `round`, `origin`, and a `(bitmap, aggregate signature)`
pair; the bitmap is a vector of `u128` words, modelled as `Nat < 2^128`). -/
structure Certificate where
  header_id : Digest
  round : Round
  origin : PublicKey
  votes : List Nat × SignatureShareG1
deriving DecidableEq

/-- Certificate of the `src/primary/src/messages.rs` snapshot (lines 277-305),
used by its `Certificate::genesis`. -/
structure MessagesCertificate where
  header : Header
  votes : List PublicKey
deriving DecidableEq

/-! ## Committee and clan (the repository's `config` crate, absent from
`src/`; modelled from the spec). -/

/-- Modelled from the spec: what the committee stores per authority
("The committee maps authorities to `{stake, clan_id, aggregate_pubkey_share}`",
§3); the clan assignment is carried by the separate `Clan` value below. -/
structure Authority where
  stake : Nat
  blsKeyG2 : PublicKeyShareG2

/-- Modelled from the spec: the committee of the missing `config` crate
(§3, §4.2): authorities with stakes and BLS G2 key shares, plus a
deterministic leader schedule `leaders_per_round → round → authorities`. -/
structure Committee where
  authorities : List (PublicKey × Authority)
  leaderSchedule : Nat → Nat → List PublicKey

/-- Modelled from the spec: `stake(author)`; 0 for a non-member. -/
def Committee.stake (c : Committee) (a : PublicKey) : Nat :=
  ((c.authorities.find? fun p => p.1 == a).map fun p => p.2.stake).getD 0

/-- Total committee stake `T` (sum of all stakes, §3). -/
def Committee.total_stake (c : Committee) : Nat :=
  (c.authorities.map fun p => p.2.stake).sum

/-- Modelled from the spec: quorum threshold `Q = ⌈2T/3⌉ + 1` (§3). -/
def Committee.quorum_threshold (c : Committee) : Nat :=
  (2 * c.total_stake + 2) / 3 + 1

/-- Modelled from the spec: validity threshold `V = ⌊T/3⌋ + 1` (§3). -/
def Committee.validity_threshold (c : Committee) : Nat :=
  c.total_stake / 3 + 1

/-- Modelled from the spec: `get_bls_public_g2(author)` (§4.2). -/
def Committee.get_bls_public_g2 (c : Committee) (a : PublicKey) : PublicKeyShareG2 :=
  ((c.authorities.find? fun p => p.1 == a).map fun p => p.2.blsKeyG2).getD 0

/-- Modelled from the spec: `leader_list(leaders_per_round, round)` (§4.2),
deterministic from the round and the committee. -/
def Committee.leader_list (c : Committee) (leaders_per_round : Nat) (round : Nat) :
    List PublicKey :=
  c.leaderSchedule leaders_per_round round

/-- Modelled from the spec: a clan (§3): a subset of authorities with their
stakes. -/
structure Clan where
  members : List (PublicKey × Nat)

/-- Modelled from the spec: clan membership test. -/
def Clan.is_member (cl : Clan) (a : PublicKey) : Bool :=
  cl.members.any fun p => p.1 == a

/-- Modelled from the spec: stake of a clan member; 0 for a non-member. -/
def Clan.stake (cl : Clan) (a : PublicKey) : Nat :=
  ((cl.members.find? fun p => p.1 == a).map fun p => p.2).getD 0

/-- Clan stake sum `T_clan` (§3). -/
def Clan.total_stake (cl : Clan) : Nat :=
  (cl.members.map fun p => p.2).sum

/-- Modelled from the spec: clan validity threshold `V_clan = ⌊T_clan/3⌋ + 1` (§3). -/
def Clan.validity_threshold (cl : Clan) : Nat :=
  cl.total_stake / 3 + 1

/-- Modelled from the spec: the error taxonomy of the missing `error` module;
only `AuthorityReuse` is reachable from the embedded code (§7). -/
inductive DagError where
  | AuthorityReuse (author : PublicKey)
deriving DecidableEq

deriving instance DecidableEq for Except

/-! ## `std::collections::HashSet` insertion and `slice::binary_search` -/

/-- Rust `HashSet::insert`: returns whether the element was newly inserted,
together with the updated set (modelled as a list of distinct elements). -/
def hsInsert (s : List PublicKey) (a : PublicKey) : Bool × List PublicKey :=
  if a ∈ s then (false, s) else (true, a :: s)

/-- Fuelled worker for `binarySearch`, mirroring Rust's
`slice::binary_search` loop: search `[lo, hi)`, halving at each step. The
fuel only bounds the number of iterations so that the recursion is
structural; `l.length + 1` iterations always suffice. -/
def binarySearchAux (l : List PublicKeyShareG2) (k : PublicKeyShareG2) :
    Nat → Nat → Nat → Option Nat
  | 0, _, _ => none
  | fuel + 1, lo, hi =>
    if lo < hi then
      let mid := (lo + hi) / 2
      let v := l.getD mid 0
      if v = k then some mid
      else if v < k then binarySearchAux l k fuel (mid + 1) hi
      else binarySearchAux l k fuel lo mid
    else none

/-- Rust `slice::binary_search(&k)`: `some i` with `l[i] = k` on a sorted
slice containing `k`, `none` (the `Err` case) otherwise. -/
def binarySearch (l : List PublicKeyShareG2) (k : PublicKeyShareG2) : Option Nat :=
  binarySearchAux l k (l.length + 1) 0 l.length

/-- Clearing bit `bit` of a `u128` word: Rust `w &= !(1u128 << bit)`. -/
def clearBit (w : Nat) (bit : Nat) : Nat :=
  w &&& ((2 ^ 128 - 1) ^^^ (1 <<< bit))

/-- Bit `i` of a `Vec<u128>` bitmap (word `i / 128`, bit `i % 128`). -/
def bitmapTest (v : List Nat) (i : Nat) : Bool :=
  (v.getD (i / 128) 0).testBit (i % 128)

/-! ## `src/primary/src/aggregators.rs` -/

/-- State of `VotesAggregator` (`aggregators.rs` lines 12-20). -/
structure VotesAggregator where
  committee_weight : Nat
  clan_weight : Nat
  votes : List (PublicKeyShareG2 × SignatureShareG1)
  used : List PublicKey
  agg_sign : SignatureShareG1
  pk_bit_vec : List Nat
  sorted_keys : List PublicKeyShareG2
deriving DecidableEq

/-- Rust `VotesAggregator::new` (`aggregators.rs` lines 23-33): zero weights,
no votes, default aggregate signature, and `⌈total_nodes/128⌉` all-ones
`u128` words. -/
def VotesAggregator.new (sorted_keys : List PublicKeyShareG2) (total_nodes : Nat) :
    VotesAggregator :=
  ⟨0, 0, [], [], 0, List.replicate ((total_nodes + 127) / 128) (2 ^ 128 - 1), sorted_keys⟩

/-- Rust `VotesAggregator::append` (`aggregators.rs` lines 35-80). The BLS
share aggregation `crypto::aggregate_sign` is abstracted as the function
argument `aggregate_sign`. The outer `Option` is `none` exactly when the Rust
code panics (the `.unwrap()` on the binary search, or an out-of-range bitmap
index); otherwise the result pairs the returned `DagResult` with the state
the aggregator holds after the call. -/
def VotesAggregator.append (aggregate_sign : SignatureShareG1 → SignatureShareG1 → SignatureShareG1)
    (s : VotesAggregator) (vote : Vote) (committee : Committee) (clan : Clan) :
    Option (Except DagError (Option Certificate) × VotesAggregator) :=
  let author := vote.author
  let author_bls := committee.get_bls_public_g2 author
  match hsInsert s.used author with
  | (false, used) => some (.error (.AuthorityReuse author), { s with used := used })
  | (true, used) =>
    let s := { s with used := used,
                      votes := s.votes ++ [(author_bls, vote.signature)],
                      committee_weight := s.committee_weight + committee.stake author }
    let s := if clan.is_member author then
        { s with clan_weight := s.clan_weight + clan.stake author }
      else s
    match binarySearch s.sorted_keys author_bls with
    | none => none
    | some id =>
      let chunk := id / 128
      let bit := id % 128
      if hc : chunk < s.pk_bit_vec.length then
        let s := { s with
          pk_bit_vec := s.pk_bit_vec.set chunk (clearBit (s.pk_bit_vec.get ⟨chunk, hc⟩) bit) }
        let s :=
          if s.votes.length = 1 then { s with agg_sign := vote.signature }
          else if 2 ≤ s.votes.length then
            { s with agg_sign := aggregate_sign s.agg_sign vote.signature }
          else s
        if s.committee_weight ≥ committee.quorum_threshold ∧
            s.clan_weight ≥ clan.validity_threshold then
          some (.ok (some ⟨vote.id, vote.round, vote.origin, (s.pk_bit_vec, s.agg_sign)⟩),
            { s with committee_weight := 0 })
        else
          some (.ok none, s)
      else none

/-- State of `CertificatesAggregator` (`aggregators.rs` lines 84-88). -/
structure CertificatesAggregator where
  weight : Nat
  certificates : List Certificate
  used : List PublicKey

/-- Rust `CertificatesAggregator::new`. -/
def CertificatesAggregator.new : CertificatesAggregator := ⟨0, [], []⟩

/-- Rust `CertificatesAggregator::append` (`aggregators.rs` lines 99-131).
The Rust signature returns a `DagResult`, but no error path exists; the
result pairs the optional batch with the post-call state. -/
def CertificatesAggregator.append (s : CertificatesAggregator) (certificate : Certificate)
    (committee : Committee) (leaders_per_round : Nat) :
    Option (List Certificate) × CertificatesAggregator :=
  let origin := certificate.origin
  match hsInsert s.used origin with
  | (false, used) => (none, { s with used := used })
  | (true, used) =>
    let round := certificate.round
    let s := { s with used := used,
                      certificates := s.certificates ++ [certificate],
                      weight := s.weight + committee.stake origin }
    let leaders := committee.leader_list leaders_per_round round
    if leaders.all fun leader => s.used.contains leader then
      if s.weight ≥ committee.quorum_threshold then
        (some s.certificates, { s with certificates := [] })
      else (none, s)
    else (none, s)

/-- Timeout message as consumed by `TimeoutAggregator::append` (round,
author, and an ed25519 signature). -/
structure Timeout where
  round : Round
  author : PublicKey
  signature : Signature

/-- State of `TimeoutAggregator` (`aggregators.rs` lines 135-139). -/
structure TimeoutAggregator where
  weight : Nat
  timeouts : List (PublicKey × Signature)
  used : List PublicKey

/-- Rust `TimeoutAggregator::new`. -/
def TimeoutAggregator.new : TimeoutAggregator := ⟨0, [], []⟩

/-- Rust `TimeoutAggregator::append` (`aggregators.rs` lines 150-170). -/
def TimeoutAggregator.append (s : TimeoutAggregator) (timeout : Timeout)
    (committee : Committee) :
    Except DagError (Option TimeoutCert) × TimeoutAggregator :=
  let author := timeout.author
  match hsInsert s.used author with
  | (false, used) => (.error (.AuthorityReuse author), { s with used := used })
  | (true, used) =>
    let s := { s with used := used,
                      timeouts := s.timeouts ++ [(author, timeout.signature)],
                      weight := s.weight + committee.stake author }
    if s.weight ≥ committee.quorum_threshold then
      (.ok (some ⟨timeout.round, s.timeouts⟩), s)
    else (.ok none, s)

/-- No-vote message as consumed by `NoVoteAggregator::append`. -/
structure NoVoteMsg where
  round : Round
  author : PublicKey
  signature : Signature

/-- State of `NoVoteAggregator` (`aggregators.rs` lines 174-178). -/
structure NoVoteAggregator where
  weight : Nat
  no_votes : List (PublicKey × Signature)
  used : List PublicKey

/-- Rust `NoVoteAggregator::new`. -/
def NoVoteAggregator.new : NoVoteAggregator := ⟨0, [], []⟩

/-- Rust `NoVoteAggregator::append` (`aggregators.rs` lines 189-209). -/
def NoVoteAggregator.append (s : NoVoteAggregator) (no_vote_msg : NoVoteMsg)
    (committee : Committee) :
    Except DagError (Option NoVoteCert) × NoVoteAggregator :=
  let author := no_vote_msg.author
  match hsInsert s.used author with
  | (false, used) => (.error (.AuthorityReuse author), { s with used := used })
  | (true, used) =>
    let s := { s with used := used,
                      no_votes := s.no_votes ++ [(author, no_vote_msg.signature)],
                      weight := s.weight + committee.stake author }
    if s.weight ≥ committee.quorum_threshold then
      (.ok (some ⟨no_vote_msg.round, s.no_votes⟩), s)
    else (.ok none, s)

/-! ## Genesis certificates (`src/primary/src/messages.rs` lines 283-305) -/

/-- Rust `Certificate::default()` of the `messages.rs` snapshot. -/
def MessagesCertificate.defaultValue : MessagesCertificate := ⟨Header.defaultValue, []⟩

/-- Rust `Certificate::genesis` (`messages.rs` lines 284-296): one default
certificate per committee authority, with only the header author set. The
`BTreeMap` key iteration of `committee.authorities.keys()` is the
authority-list order of the committee model. -/
def MessagesCertificate.genesis (committee : Committee) : List MessagesCertificate :=
  committee.authorities.map fun p =>
    { MessagesCertificate.defaultValue with
        header := { Header.defaultValue with author := p.1 } }

/-! ## `src/primary/src/synchronizer.rs` -/

/-- Modelled from the spec: `HeaderInfo`, the compact header variant omitting
the payload body (§Design notes); defined in the missing `primary.rs`, used
by the synchronizer only through its `parents`. -/
structure HeaderInfo where
  author : PublicKey
  round : Round
  parents : List Digest
  id : Digest

/-- Modelled from the spec: the sum type `HeaderType ∈ {Header, HeaderInfo}`
(§Design notes), defined in the missing `primary.rs`. -/
inductive HeaderType where
  | Header (header : Header)
  | HeaderInfo (header_info : HeaderInfo)

/-- The parents list of either `HeaderType` variant, as matched out by
`Synchronizer::get_parents` and `Synchronizer::deliver_certificate`. -/
def HeaderType.parents : HeaderType → List Digest
  | .Header header => header.parents
  | .HeaderInfo header_info => header_info.parents

/-- The `WaiterMessage` variant sent by `Synchronizer::get_parents`
(`header_waiter.rs` is absent from `src/`; the variant's payload is read off
the `send` call site). -/
inductive WaiterMessage where
  | SyncParents (missing : List Digest) (header_msg : HeaderType)

/-- The persistent storage, as the partial map a `Store` read observes:
stored values deserialize (`bincode::deserialize`) to `HeaderType` values.
Read failures other than absence are fatal panics in the source and are not
modelled. -/
def Store : Type := Digest → Option HeaderType

/-- State of `Synchronizer` (`synchronizer.rs` lines 13-24): the store and
the genesis `(digest, header)` pairs. The two channel senders are modelled
by returning the list of messages sent on each call. -/
structure Synchronizer where
  name : PublicKey
  store : Store
  genesis : List (Digest × Header)

/-- Loop body of `Synchronizer::get_parents` (`synchronizer.rs` lines
100-119): walk the parents in order, substituting genesis headers,
collecting found headers and missing digests. -/
def getParentsLoop (sync : Synchronizer) : List Digest → List Digest × List HeaderType
  | [] => ([], [])
  | parent :: rest =>
    match sync.genesis.find? fun g => g.1 == parent with
    | some g =>
      let r := getParentsLoop sync rest
      (r.1, .Header g.2 :: r.2)
    | none =>
      match sync.store parent with
      | some header_msg =>
        let r := getParentsLoop sync rest
        (r.1, header_msg :: r.2)
      | none =>
        let r := getParentsLoop sync rest
        (parent :: r.1, r.2)

/-- Rust `Synchronizer::get_parents` (`synchronizer.rs` lines 86-130):
returns the resolved parents (empty when anything is missing) together with
the messages sent to the `HeaderWaiter` channel. -/
def Synchronizer.get_parents (sync : Synchronizer) (header_msg : HeaderType) :
    List HeaderType × List WaiterMessage :=
  let r := getParentsLoop sync header_msg.parents
  if r.1.isEmpty then (r.2, [])
  else ([], [.SyncParents r.1 header_msg])

/-- Loop body of `Synchronizer::deliver_certificate` (`synchronizer.rs`
lines 149-161): scan the parents, skipping genesis digests; on the first
parent missing from the store, send the certificate to the
`CertificateWaiter` and report `false`. -/
def deliverLoop (sync : Synchronizer) (certificate : Certificate) :
    List Digest → Bool × List Certificate
  | [] => (true, [])
  | cert :: rest =>
    if sync.genesis.any fun g => g.1 == cert then deliverLoop sync certificate rest
    else
      match sync.store cert with
      | some _ => deliverLoop sync certificate rest
      | none => (false, [certificate])

/-- Rust `Synchronizer::deliver_certificate` (`synchronizer.rs` lines
134-171): returns the readiness flag together with the certificates sent to
the `CertificateWaiter` channel. -/
def Synchronizer.deliver_certificate (sync : Synchronizer) (certificate : Certificate) :
    Bool × List Certificate :=
  match sync.store certificate.header_id with
  | some head => deliverLoop sync certificate head.parents
  | none => (false, [certificate])

/-! ## Specification-side characterizations and theorems.

The definitions below restate, in the spec's words, what the synchronizer
functions should compute; the theorems prove the code equal to them. -/

/-- Spec §4.5 readiness for `deliver_certificate`: the referenced header is
in storage and each of its parents is a genesis digest or in storage. -/
def certReady (sync : Synchronizer) (certificate : Certificate) : Bool :=
  match sync.store certificate.header_id with
  | none => false
  | some head =>
    head.parents.all fun p => (sync.genesis.any fun g => g.1 == p) || (sync.store p).isSome

/-- Spec §4.5 parent resolution: a genesis digest resolves to the local
genesis header, anything else to its storage entry (if present). -/
def resolveParent (sync : Synchronizer) (p : Digest) : Option HeaderType :=
  match sync.genesis.find? fun g => g.1 == p with
  | some g => some (.Header g.2)
  | none => sync.store p

/-- Spec §4.5: the parents that are neither genesis digests nor stored. -/
def missingParents (sync : Synchronizer) (ps : List Digest) : List Digest :=
  ps.filter fun p => !(sync.genesis.any fun g => g.1 == p) && (sync.store p).isNone

theorem deliverLoop_eq (sync : Synchronizer) (certificate : Certificate) (ps : List Digest) :
    deliverLoop sync certificate ps =
      ((ps.all fun p => (sync.genesis.any fun g => g.1 == p) || (sync.store p).isSome),
        cond (ps.all fun p => (sync.genesis.any fun g => g.1 == p) || (sync.store p).isSome)
          ([] : List Certificate) [certificate]) := by
  induction ps with
  | nil => simp [deliverLoop]
  | cons p rest ih =>
    simp only [deliverLoop, List.all_cons]
    by_cases hg : (sync.genesis.any fun g => g.1 == p) = true
    · simp [hg, ih]
    · rw [Bool.not_eq_true] at hg
      simp only [hg, Bool.false_or, Bool.false_eq_true, if_false]
      cases hs : sync.store p with
      | none => simp
      | some ht => simp [ih]

/-- C7: `Synchronizer::deliver_certificate` returns `true` exactly when the
certificate's header is stored and each of its parents is a genesis digest
or stored; in every other case it sends the certificate to the
CertificateWaiter channel and returns `false`. -/
theorem deliver_certificate_ready_iff (sync : Synchronizer) (certificate : Certificate) :
    sync.deliver_certificate certificate =
      (certReady sync certificate,
        if certReady sync certificate then [] else [certificate]) := by
  unfold Synchronizer.deliver_certificate certReady
  cases hs : sync.store certificate.header_id with
  | none => simp
  | some head =>
    simp only [deliverLoop_eq]
    by_cases h : (head.parents.all fun p =>
        (sync.genesis.any fun g => g.1 == p) || (sync.store p).isSome) = true
    · simp [h]
    · rw [Bool.not_eq_true] at h
      simp [h]

theorem getParentsLoop_eq (sync : Synchronizer) (ps : List Digest) :
    getParentsLoop sync ps = (missingParents sync ps, ps.filterMap (resolveParent sync)) := by
  induction ps with
  | nil => simp [getParentsLoop, missingParents]
  | cons p rest ih =>
    simp only [getParentsLoop]
    cases hf : sync.genesis.find? fun g => g.1 == p with
    | some g =>
      have hmem := List.mem_of_find?_eq_some hf
      have hp := List.find?_some hf
      have hany : (sync.genesis.any fun g => g.1 == p) = true :=
        List.any_eq_true.mpr ⟨g, hmem, hp⟩
      simp [missingParents, resolveParent, hf, hany, ih]
    | none =>
      have hany : (sync.genesis.any fun g => g.1 == p) = false := by
        simp only [List.any_eq_false]
        intro g hg
        simpa using List.find?_eq_none.mp hf g hg
      cases hs : sync.store p with
      | some header_msg => simp [missingParents, resolveParent, hf, hany, hs, ih]
      | none => simp [missingParents, resolveParent, hf, hany, hs, ih]

/-- C8: `Synchronizer::get_parents` substitutes the local genesis header for
genesis parent digests; when every parent resolves it returns the full
resolved list (and sends nothing), otherwise it sends
`SyncParents(missing, header)` to the HeaderWaiter channel and returns the
empty list. -/
theorem get_parents_resolved_or_sync (sync : Synchronizer) (header_msg : HeaderType) :
    sync.get_parents header_msg =
      if missingParents sync header_msg.parents = [] then
        (header_msg.parents.filterMap (resolveParent sync), [])
      else ([], [.SyncParents (missingParents sync header_msg.parents) header_msg]) := by
  unfold Synchronizer.get_parents
  rw [getParentsLoop_eq]
  by_cases h : missingParents sync header_msg.parents = [] <;>
    simp [h]

/-- C4: `CertificatesAggregator::append` ignores an already-seen origin
(returning no batch and leaving the state unchanged); otherwise it records
the certificate and the origin's stake and emits the accumulated
certificates, in insertion order, exactly when every leader of the
certificate's round is among the seen origins and the accumulated stake
reaches the quorum threshold (in which case the pending list is drained). -/
theorem certificatesAggregator_append_spec (s : CertificatesAggregator)
    (certificate : Certificate) (committee : Committee) (leaders_per_round : Nat) :
    s.append certificate committee leaders_per_round =
      if certificate.origin ∈ s.used then (none, s)
      else if (∀ l ∈ committee.leader_list leaders_per_round certificate.round,
                l ∈ certificate.origin :: s.used) ∧
              committee.quorum_threshold ≤ s.weight + committee.stake certificate.origin then
        (some (s.certificates ++ [certificate]),
          ⟨s.weight + committee.stake certificate.origin, [], certificate.origin :: s.used⟩)
      else
        (none, ⟨s.weight + committee.stake certificate.origin,
          s.certificates ++ [certificate], certificate.origin :: s.used⟩) := by
  unfold CertificatesAggregator.append hsInsert
  by_cases hd : certificate.origin ∈ s.used
  · simp [hd]
  · simp only [hd, if_false, List.all_eq_true, List.contains, List.elem_eq_mem,
      decide_eq_true_eq, List.mem_cons]
    split_ifs with h1 h2 h3 <;> first | rfl | tauto

/-- A one-authority committee used to evaluate the embedding at concrete
inputs. -/
def cexCommittee : Committee := ⟨[(zeroBytes32, ⟨1, 0⟩)], fun _ _ => []⟩

set_option maxRecDepth 100000 in
/-- C5 (counterexample): in `Certificate::genesis` the fabricated header
keeps `id = Digest::default()`, which is not the digest of the header
template: refuted on a concrete one-authority committee. -/
theorem certificate_genesis_id_cex :
    ¬ ∀ cert ∈ MessagesCertificate.genesis cexCommittee,
        cert.header.id = cert.header.digest := by
  intro h
  have hmem : ({ MessagesCertificate.defaultValue with
      header := { Header.defaultValue with author := zeroBytes32 } } :
        MessagesCertificate) ∈ MessagesCertificate.genesis cexCommittee := by
    simp [MessagesCertificate.genesis, cexCommittee]
  have := h _ hmem
  revert this
  decide

/-- C5 (amended): `Certificate::genesis` yields exactly one certificate per
committee authority, in committee order, each with empty payload, empty
parents, round 0, no votes, and the default (all-zero) header id; the
result is determined by the authority list alone. -/
theorem certificate_genesis_characterization (committee : Committee) :
    ((MessagesCertificate.genesis committee).map fun cert => cert.header.author) =
        committee.authorities.map (fun p => p.1) ∧
    (∀ cert ∈ MessagesCertificate.genesis committee,
      cert.header.payload = [] ∧ cert.header.parents = [] ∧
        cert.header.id = Digest.defaultValue ∧ cert.header.round = 0 ∧ cert.votes = []) ∧
    (∀ c2 : Committee, c2.authorities = committee.authorities →
      MessagesCertificate.genesis c2 = MessagesCertificate.genesis committee) := by
  refine ⟨?_, ?_, ?_⟩
  · simp [MessagesCertificate.genesis, MessagesCertificate.defaultValue, Header.defaultValue]
  · intro cert hc
    simp only [MessagesCertificate.genesis, List.mem_map] at hc
    obtain ⟨p, hp, rfl⟩ := hc
    simp [MessagesCertificate.defaultValue, Header.defaultValue]
  · intro c2 h2
    simp [MessagesCertificate.genesis, h2]

/-! ## Correctness of the embedded binary search -/

theorem binarySearchAux_some (l : List PublicKeyShareG2) (k : PublicKeyShareG2) :
    ∀ fuel lo hi i, binarySearchAux l k fuel lo hi = some i →
      lo ≤ i ∧ i < hi ∧ l.getD i 0 = k := by
  intro fuel
  induction fuel with
  | zero => intro lo hi i h; exact absurd h (by simp [binarySearchAux])
  | succ fuel ih =>
    intro lo hi i h
    simp only [binarySearchAux] at h
    by_cases hlh : lo < hi
    · rw [if_pos hlh] at h
      by_cases hveq : l.getD ((lo + hi) / 2) 0 = k
      · rw [if_pos hveq] at h
        cases h
        exact ⟨by omega, by omega, hveq⟩
      · rw [if_neg hveq] at h
        by_cases hvlt : l.getD ((lo + hi) / 2) 0 < k
        · rw [if_pos hvlt] at h
          obtain ⟨h1, h2, h3⟩ := ih _ _ _ h
          exact ⟨by omega, h2, h3⟩
        · rw [if_neg hvlt] at h
          obtain ⟨h1, h2, h3⟩ := ih _ _ _ h
          exact ⟨h1, by omega, h3⟩
    · rw [if_neg hlh] at h
      cases h

theorem binarySearchAux_finds (l : List PublicKeyShareG2) (k : PublicKeyShareG2)
    (hsort : l.Pairwise (· < ·)) :
    ∀ fuel lo hi, hi ≤ l.length → hi - lo < fuel →
      ∀ t, lo ≤ t → t < hi → l.getD t 0 = k →
      ∃ i, binarySearchAux l k fuel lo hi = some i := by
  intro fuel
  induction fuel with
  | zero => intro lo hi _ hf t ht1 ht2 _; omega
  | succ fuel ih =>
    intro lo hi hle hf t ht1 ht2 htk
    have hlh : lo < hi := by omega
    have hmidlen : (lo + hi) / 2 < l.length := by omega
    have htlen : t < l.length := by omega
    simp only [binarySearchAux, if_pos hlh]
    by_cases hveq : l.getD ((lo + hi) / 2) 0 = k
    · rw [if_pos hveq]
      exact ⟨_, rfl⟩
    · rw [if_neg hveq]
      have hget := List.pairwise_iff_getElem.mp hsort
      have htk2 : l[t] = k := by rw [← List.getD_eq_getElem l 0 htlen]; exact htk
      by_cases hvlt : l.getD ((lo + hi) / 2) 0 < k
      · rw [if_pos hvlt]
        rw [List.getD_eq_getElem l 0 hmidlen] at hvlt hveq
        have htgt : (lo + hi) / 2 < t := by
          rcases Nat.lt_trichotomy t ((lo + hi) / 2) with hlt | heq | hgt
          · have := hget t ((lo + hi) / 2) htlen hmidlen hlt
            exact absurd (htk2 ▸ this) (Nat.lt_asymm hvlt)
          · subst heq; exact absurd htk2 hveq
          · exact hgt
        exact ih ((lo + hi) / 2 + 1) hi hle (by omega) t (by omega) ht2 htk
      · rw [if_neg hvlt]
        rw [List.getD_eq_getElem l 0 hmidlen] at hvlt hveq
        have htlt : t < (lo + hi) / 2 := by
          rcases Nat.lt_trichotomy t ((lo + hi) / 2) with hlt | heq | hgt
          · exact hlt
          · subst heq; exact absurd htk2 hveq
          · have := hget ((lo + hi) / 2) t hmidlen htlen hgt
            exact absurd (htk2 ▸ this) hvlt
        exact ih lo ((lo + hi) / 2) (by omega) (by omega) t ht1 htlt htk

/-- On a strictly sorted list containing `k`, the embedded `binarySearch`
returns the (unique) index of `k`. -/
theorem binarySearch_spec (l : List PublicKeyShareG2) (k : PublicKeyShareG2)
    (hsort : l.Pairwise (· < ·)) (hk : k ∈ l) :
    ∃ i, binarySearch l k = some i ∧ i < l.length ∧ l.getD i 0 = k := by
  obtain ⟨t, htlen, htk⟩ := List.getElem_of_mem hk
  have htk2 : l.getD t 0 = k := by rw [List.getD_eq_getElem l 0 htlen]; exact htk
  obtain ⟨i, hi⟩ := binarySearchAux_finds l k hsort (l.length + 1) 0 l.length
    (Nat.le_refl _) (by omega) t (Nat.zero_le _) htlen htk2
  obtain ⟨h1, h2, h3⟩ := binarySearchAux_some l k _ _ _ _ hi
  exact ⟨i, hi, h2, h3⟩

/-- The embedded `binarySearch` fails (the Rust `Err` case, unwrapped into a
panic by `VotesAggregator::append`) when the key is absent. -/
theorem binarySearch_none (l : List PublicKeyShareG2) (k : PublicKeyShareG2)
    (hk : k ∉ l) : binarySearch l k = none := by
  cases hb : binarySearch l k with
  | none => rfl
  | some i =>
    obtain ⟨_, h2, h3⟩ := binarySearchAux_some l k _ _ _ _ hb
    rw [List.getD_eq_getElem l 0 h2] at h3
    exact absurd (h3 ▸ List.getElem_mem h2) hk

/-- In a strictly sorted list, positions of equal values coincide. -/
theorem sorted_getElem_inj (l : List PublicKeyShareG2) (hsort : l.Pairwise (· < ·))
    (i j : Nat) (hi : i < l.length) (hj : j < l.length) (hij : l[i] = l[j]) : i = j := by
  have hget := List.pairwise_iff_getElem.mp hsort
  rcases Nat.lt_trichotomy i j with hlt | heq | hgt
  · have := hget i j hi hj hlt
    exact absurd (hij ▸ this) (lt_irrefl _)
  · exact heq
  · have := hget j i hj hi hgt
    exact absurd (hij ▸ this) (lt_irrefl _)

/-! ## A step characterization of `VotesAggregator::append` -/

/-- Clan stake added by a vote: the author's clan stake when the author is a
clan member, 0 otherwise (the two branches of `aggregators.rs` lines 50-52). -/
def clanAdd (cl : Clan) (a : PublicKey) : Nat :=
  if cl.is_member a then cl.stake a else 0

/-- The bitmap after clearing the bit at global index `idx`. -/
def bitvecClear (bv : List Nat) (idx : Nat) : List Nat :=
  bv.set (idx / 128) (clearBit (bv.getD (idx / 128) 0) (idx % 128))

/-- The aggregate signature after folding in one more vote (identity on the
first vote, pairwise aggregation afterwards). -/
def newAggSign (aggregate_sign : SignatureShareG1 → SignatureShareG1 → SignatureShareG1)
    (s : VotesAggregator) (v : Vote) : SignatureShareG1 :=
  if s.votes.length + 1 = 1 then v.signature else aggregate_sign s.agg_sign v.signature

/-- The aggregator state reached by a successful `append` before the
emission latch. -/
def appendPost (aggregate_sign : SignatureShareG1 → SignatureShareG1 → SignatureShareG1)
    (c : Committee) (cl : Clan) (s : VotesAggregator) (v : Vote) (idx : Nat) :
    VotesAggregator :=
  ⟨s.committee_weight + c.stake v.author,
   s.clan_weight + clanAdd cl v.author,
   s.votes ++ [(c.get_bls_public_g2 v.author, v.signature)],
   v.author :: s.used,
   newAggSign aggregate_sign s v,
   bitvecClear s.pk_bit_vec idx,
   s.sorted_keys⟩

theorem votes_append_eq (aggregate_sign : SignatureShareG1 → SignatureShareG1 → SignatureShareG1)
    (s : VotesAggregator) (v : Vote) (c : Committee) (cl : Clan) (idx : Nat)
    (hused : v.author ∉ s.used)
    (hbs : binarySearch s.sorted_keys (c.get_bls_public_g2 v.author) = some idx)
    (hchunk : idx / 128 < s.pk_bit_vec.length) :
    s.append aggregate_sign v c cl =
      if c.quorum_threshold ≤ s.committee_weight + c.stake v.author ∧
          cl.validity_threshold ≤ s.clan_weight + clanAdd cl v.author then
        some (.ok (some ⟨v.id, v.round, v.origin,
            ((appendPost aggregate_sign c cl s v idx).pk_bit_vec,
             (appendPost aggregate_sign c cl s v idx).agg_sign)⟩),
          { appendPost aggregate_sign c cl s v idx with committee_weight := 0 })
      else some (.ok none, appendPost aggregate_sign c cl s v idx) := by
  obtain ⟨cw, clw, vts, used, sig, bv, keys⟩ := s
  rcases vts with _ | ⟨p, rest⟩ <;> by_cases hm : cl.is_member v.author = true <;>
    simp [VotesAggregator.append, hsInsert, hused, hbs, hchunk, appendPost, bitvecClear,
      newAggSign, clanAdd, hm, List.getD_eq_getElem bv 0 hchunk, List.get_eq_getElem]

/-! ## Runs of `VotesAggregator::append` -/

/-- The outcome sequence of feeding a list of votes to one aggregator: each
entry is the `DagResult` of that call (`none` marks a panic, which aborts
the run); the second component is the final state (`none` after a panic). -/
def runVotes (aggregate_sign : SignatureShareG1 → SignatureShareG1 → SignatureShareG1)
    (c : Committee) (cl : Clan) :
    VotesAggregator → List Vote →
    List (Option (Except DagError (Option Certificate))) × Option VotesAggregator
  | s, [] => ([], some s)
  | s, v :: vs =>
    match s.append aggregate_sign v c cl with
    | none => ([none], none)
    | some (r, s2) =>
      let rest := runVotes aggregate_sign c cl s2 vs
      (some r :: rest.1, rest.2)

/-- Committee stake carried by a list of votes. -/
def committeeWeightSum (c : Committee) (vs : List Vote) : Nat :=
  (vs.map fun v => c.stake v.author).sum

/-- Clan stake carried by a list of votes (only clan members count). -/
def clanWeightSum (cl : Clan) (vs : List Vote) : Nat :=
  (vs.map fun v => clanAdd cl v.author).sum

/-- The claim's emission condition after the `(i+1)`-st vote, on top of
initial weights `w0`, `c0`: accumulated committee weight at least `Q` and
accumulated clan weight at least `V_clan`. -/
def thresholdHit (c : Committee) (cl : Clan) (w0 c0 : Nat) (vs : List Vote) (i : Nat) :
    Prop :=
  c.quorum_threshold ≤ w0 + committeeWeightSum c (vs.take (i + 1)) ∧
  cl.validity_threshold ≤ c0 + clanWeightSum cl (vs.take (i + 1))

instance (c : Committee) (cl : Clan) (w0 c0 : Nat) (vs : List Vote) (i : Nat) :
    Decidable (thresholdHit c cl w0 c0 vs i) := by
  unfold thresholdHit
  infer_instance

theorem thresholdHit_cons (c : Committee) (cl : Clan) (w0 c0 : Nat) (v : Vote)
    (vs : List Vote) (j : Nat) :
    thresholdHit c cl w0 c0 (v :: vs) (j + 1) ↔
      thresholdHit c cl (w0 + c.stake v.author) (c0 + clanAdd cl v.author) vs j := by
  simp only [thresholdHit, committeeWeightSum, clanWeightSum, List.take_succ_cons,
    List.map_cons, List.sum_cons, Nat.add_assoc]

theorem thresholdHit_zero (c : Committee) (cl : Clan) (w0 c0 : Nat) (v : Vote)
    (vs : List Vote) :
    thresholdHit c cl w0 c0 (v :: vs) 0 ↔
      (c.quorum_threshold ≤ w0 + c.stake v.author ∧
       cl.validity_threshold ≤ c0 + clanAdd cl v.author) := by
  simp only [thresholdHit, committeeWeightSum, clanWeightSum, List.take_succ_cons,
    List.take_zero, List.map_cons, List.map_nil, List.sum_cons, List.sum_nil,
    Nat.add_zero]

theorem runVotes_first_emission_general
    (aggregate_sign : SignatureShareG1 → SignatureShareG1 → SignatureShareG1)
    (c : Committee) (cl : Clan) :
    ∀ (vs : List Vote) (s : VotesAggregator),
      s.sorted_keys.Pairwise (· < ·) →
      s.sorted_keys.length ≤ 128 * s.pk_bit_vec.length →
      (∀ v ∈ vs, c.get_bls_public_g2 v.author ∈ s.sorted_keys) →
      (∀ v ∈ vs, v.author ∉ s.used) →
      (vs.map fun v => v.author).Nodup →
      ∀ i, i < vs.length →
        ((∀ j, j ≤ i → ¬ thresholdHit c cl s.committee_weight s.clan_weight vs j) →
          (runVotes aggregate_sign c cl s vs).1.get? i = some (some (.ok none))) ∧
        (((∀ j, j < i → ¬ thresholdHit c cl s.committee_weight s.clan_weight vs j) ∧
            thresholdHit c cl s.committee_weight s.clan_weight vs i) →
          ∃ cert, (runVotes aggregate_sign c cl s vs).1.get? i =
            some (some (.ok (some cert)))) := by
  intro vs
  induction vs with
  | nil => intro s _ _ _ _ _ i hi; exact absurd hi (by simp)
  | cons v rest ih =>
    intro s hsort hlen hmem hfresh hnd i hi
    have hkey : c.get_bls_public_g2 v.author ∈ s.sorted_keys := hmem v (by simp)
    obtain ⟨idx, hbs, hidxlen, hidxval⟩ :=
      binarySearch_spec s.sorted_keys (c.get_bls_public_g2 v.author) hsort hkey
    have hchunk : idx / 128 < s.pk_bit_vec.length := by omega
    have hused : v.author ∉ s.used := hfresh v (by simp)
    have happ := votes_append_eq aggregate_sign s v c cl idx hused hbs hchunk
    have hpost : ∀ r s2, s.append aggregate_sign v c cl = some (r, s2) →
        s2.sorted_keys = s.sorted_keys ∧ s2.pk_bit_vec.length = s.pk_bit_vec.length ∧
        s2.used = v.author :: s.used := by
      intro r s2 h
      rw [happ] at h
      by_cases hcond : c.quorum_threshold ≤ s.committee_weight + c.stake v.author ∧
          cl.validity_threshold ≤ s.clan_weight + clanAdd cl v.author
      · rw [if_pos hcond] at h
        cases h
        simp [appendPost, bitvecClear]
      · rw [if_neg hcond] at h
        cases h
        simp [appendPost, bitvecClear]
    by_cases hcond : c.quorum_threshold ≤ s.committee_weight + c.stake v.author ∧
        cl.validity_threshold ≤ s.clan_weight + clanAdd cl v.author
    · -- the first vote already emits
      rw [if_pos hcond] at happ
      constructor
      · intro hnone
        exact absurd ((thresholdHit_zero c cl _ _ v rest).mpr hcond)
          (hnone 0 (Nat.zero_le i))
      · intro ⟨hbefore, hhit⟩
        have hizero : i = 0 := by
          by_contra hne
          exact absurd ((thresholdHit_zero c cl _ _ v rest).mpr hcond)
            (hbefore 0 (by omega))
        subst hizero
        refine ⟨⟨v.id, v.round, v.origin,
          ((appendPost aggregate_sign c cl s v idx).pk_bit_vec,
           (appendPost aggregate_sign c cl s v idx).agg_sign)⟩, ?_⟩
        simp only [runVotes, happ]
        rfl
    · rw [if_neg hcond] at happ
      -- no emission on this call; the post state accumulates the weights
      have hrec := ih (appendPost aggregate_sign c cl s v idx)
      rw [show (appendPost aggregate_sign c cl s v idx).sorted_keys = s.sorted_keys from rfl]
        at hrec
      have hlen2 : s.sorted_keys.length ≤
          128 * (appendPost aggregate_sign c cl s v idx).pk_bit_vec.length := by
        simpa [appendPost, bitvecClear] using hlen
      have hmem2 : ∀ u ∈ rest, c.get_bls_public_g2 u.author ∈ s.sorted_keys :=
        fun u hu => hmem u (by simp [hu])
      have hfresh2 : ∀ u ∈ rest, u.author ∉ (appendPost aggregate_sign c cl s v idx).used := by
        intro u hu
        simp only [appendPost, List.mem_cons]
        rintro (heq | hmemu)
        · simp [List.nodup_cons] at hnd
          exact hnd.1 u hu heq
        · exact hfresh u (by simp [hu]) hmemu
      have hnd2 : (rest.map fun v => v.author).Nodup := by
        simp [List.nodup_cons] at hnd
        exact hnd.2
      rcases i with _ | i
      · constructor
        · intro _
          simp only [runVotes, happ]
          rfl
        · intro ⟨_, hhit⟩
          exact absurd hhit (by rw [thresholdHit_zero]; exact hcond)
      · have hi2 : i < rest.length := by simpa using hi
        have hrec2 := hrec hsort hlen2 hmem2 hfresh2 hnd2 i hi2
        have hw : (appendPost aggregate_sign c cl s v idx).committee_weight =
            s.committee_weight + c.stake v.author := rfl
        have hc : (appendPost aggregate_sign c cl s v idx).clan_weight =
            s.clan_weight + clanAdd cl v.author := rfl
        rw [hw, hc] at hrec2
        constructor
        · intro hnone
          have h2 := hrec2.1 fun j hj hh =>
            hnone (j + 1) (by omega) ((thresholdHit_cons c cl _ _ v rest j).mpr hh)
          simp only [runVotes, happ, List.get?_cons_succ]
          exact h2
        · intro ⟨hbefore, hhit⟩
          have hhit2 := (thresholdHit_cons c cl _ _ v rest i).mp hhit
          have hbefore2 : ∀ j, j < i →
              ¬ thresholdHit c cl (s.committee_weight + c.stake v.author)
                (s.clan_weight + clanAdd cl v.author) rest j :=
            fun j hj hh =>
              hbefore (j + 1) (by omega) ((thresholdHit_cons c cl _ _ v rest j).mpr hh)
          obtain ⟨cert, hcert⟩ := hrec2.2 ⟨hbefore2, hhit2⟩
          refine ⟨cert, ?_⟩
          simp only [runVotes, happ, List.get?_cons_succ]
          exact hcert

/-- C1: on a fresh `VotesAggregator`, for a sequence of distinct-author votes
(whose BLS keys occur in the aggregator's sorted key list, so no call
panics), `append` returns `Ok(Some(_))` exactly at the first call after
which the accumulated committee stake reaches `Q` and the accumulated clan
stake reaches `V_clan`, and `Ok(None)` at every earlier call. -/
theorem votesAggregator_first_quorum_emission
    (aggregate_sign : SignatureShareG1 → SignatureShareG1 → SignatureShareG1)
    (c : Committee) (cl : Clan) (keys : List PublicKeyShareG2) (N : Nat)
    (votes : List Vote)
    (hsort : keys.Pairwise (· < ·)) (hN : keys.length = N)
    (hmem : ∀ v ∈ votes, c.get_bls_public_g2 v.author ∈ keys)
    (hnd : (votes.map fun v => v.author).Nodup) :
    ∀ i, i < votes.length →
      ((∀ j, j ≤ i → ¬ thresholdHit c cl 0 0 votes j) →
        (runVotes aggregate_sign c cl (VotesAggregator.new keys N) votes).1.get? i =
          some (some (.ok none))) ∧
      (((∀ j, j < i → ¬ thresholdHit c cl 0 0 votes j) ∧ thresholdHit c cl 0 0 votes i) →
        ∃ cert, (runVotes aggregate_sign c cl (VotesAggregator.new keys N) votes).1.get? i =
          some (some (.ok (some cert)))) := by
  intro i hi
  exact runVotes_first_emission_general aggregate_sign c cl votes
    (VotesAggregator.new keys N) hsort
    (by simp only [VotesAggregator.new, List.length_replicate]; omega)
    hmem (by simp [VotesAggregator.new]) hnd i hi

/-- A four-authority committee with unit stakes used for concrete witnesses
(`T = 4`, so `Q = 4` and `V = 2` under the spec's thresholds). -/
def wCommittee : Committee :=
  ⟨[([0], ⟨1, 10⟩), ([1], ⟨1, 20⟩), ([2], ⟨1, 30⟩), ([3], ⟨1, 40⟩)], fun _ _ => []⟩

/-- The single clan of `wCommittee` (`T_clan = 4`, `V_clan = 2`). -/
def wClan : Clan := ⟨[([0], 1), ([1], 1), ([2], 1), ([3], 1)]⟩

/-- The canonical sorted BLS key list of `wCommittee`. -/
def wKeys : List PublicKeyShareG2 := [10, 20, 30, 40]

/-- Four distinct-author votes for one header. -/
def wVotes : List Vote :=
  [⟨[9], 1, [0], [0], 7⟩, ⟨[9], 1, [0], [1], 7⟩, ⟨[9], 1, [0], [2], 7⟩, ⟨[9], 1, [0], [3], 7⟩]

/-- A concrete stand-in for the abstracted `crypto::aggregate_sign`. -/
def wAggSign : SignatureShareG1 → SignatureShareG1 → SignatureShareG1 := fun a b => a + b

theorem votesAggregator_first_quorum_emission_witness :
    (3 < wVotes.length ∧ (∀ j, j < 3 → ¬ thresholdHit wCommittee wClan 0 0 wVotes j) ∧
      thresholdHit wCommittee wClan 0 0 wVotes 3) ∧
    ∃ cert, (runVotes wAggSign wCommittee wClan (VotesAggregator.new wKeys 4) wVotes).1.get? 3 =
      some (some (.ok (some cert))) :=
  ⟨⟨by decide, by decide, by decide⟩,
   (votesAggregator_first_quorum_emission wAggSign wCommittee wClan wKeys 4 wVotes
      (by decide) (by decide) (by decide) (by decide) 3 (by decide)).2
     ⟨by decide, by decide⟩⟩

/-! ## Nat sums of distinct authors are bounded by the total stake -/

theorem map_stake_eq_filterMap (entries : List (PublicKey × Authority))
    (authors : List PublicKey) :
    (authors.map fun a =>
        (((entries.find? fun p => p.1 == a).map fun p => p.2.stake).getD 0)).sum =
      ((authors.filterMap fun a => entries.find? fun p => p.1 == a).map
        fun p => p.2.stake).sum := by
  induction authors with
  | nil => rfl
  | cons a as ih =>
    cases hf : entries.find? fun p => p.1 == a <;> simp [hf, ih]

theorem stake_sum_le_total (c : Committee) (authors : List PublicKey)
    (hnd : authors.Nodup) :
    (authors.map fun a => c.stake a).sum ≤ c.total_stake := by
  unfold Committee.stake Committee.total_stake
  rw [map_stake_eq_filterMap]
  have hMnd : (authors.filterMap fun a => c.authorities.find? fun p => p.1 == a).Nodup := by
    apply List.Nodup.filterMap ?_ hnd
    intro a a' b hb hb'
    simp only [Option.mem_def] at hb hb'
    have h1 := List.find?_some hb
    have h2 := List.find?_some hb'
    have e1 : b.1 = a := by simpa using h1
    have e2 : b.1 = a' := by simpa using h2
    rw [← e1, e2]
  have hsub : (authors.filterMap fun a => c.authorities.find? fun p => p.1 == a) ⊆
      c.authorities := by
    intro x hx
    obtain ⟨a, ha, hfa⟩ := List.mem_filterMap.mp hx
    exact List.mem_of_find?_eq_some hfa
  obtain ⟨l, hperm, hsl⟩ := List.subperm_of_subset hMnd hsub
  calc ((authors.filterMap fun a => c.authorities.find? fun p => p.1 == a).map
          fun p => p.2.stake).sum
      = (l.map fun p => p.2.stake).sum := ((hperm.map _).sum_eq).symm
    _ ≤ (c.authorities.map fun p => p.2.stake).sum := (hsl.map _).sum_le_sum (by simp)

/-! ## At most one emission per `VotesAggregator` -/

/-- Whether an `append` outcome is a certificate emission. -/
def isEmission (o : Option (Except DagError (Option Certificate))) : Bool :=
  match o with
  | some (.ok (some _)) => true
  | _ => false

theorem committeeWeightSum_cons (c : Committee) (v : Vote) (vs : List Vote) :
    committeeWeightSum c (v :: vs) = c.stake v.author + committeeWeightSum c vs := by
  simp [committeeWeightSum]

theorem total_lt_two_quorum (c : Committee) :
    c.total_stake < 2 * c.quorum_threshold := by
  have h : c.quorum_threshold = (2 * c.total_stake + 2) / 3 + 1 := rfl
  rw [h]
  generalize c.total_stake = T
  omega

theorem runVotes_emissions_general
    (aggregate_sign : SignatureShareG1 → SignatureShareG1 → SignatureShareG1)
    (c : Committee) (cl : Clan) :
    ∀ (vs : List Vote) (s : VotesAggregator) (emitted : Bool),
      s.sorted_keys.Pairwise (· < ·) →
      s.sorted_keys.length ≤ 128 * s.pk_bit_vec.length →
      (∀ v ∈ vs, c.get_bls_public_g2 v.author ∈ s.sorted_keys) →
      (∀ v ∈ vs, v.author ∉ s.used) →
      (vs.map fun v => v.author).Nodup →
      s.committee_weight + committeeWeightSum c vs ≤
        cond emitted (c.total_stake - c.quorum_threshold) c.total_stake →
      (runVotes aggregate_sign c cl s vs).1.countP isEmission ≤
        cond emitted 0 1 := by
  intro vs
  induction vs with
  | nil =>
    intro s emitted _ _ _ _ _ _
    cases emitted <;> simp [runVotes]
  | cons v rest ih =>
    intro s emitted hsort hlen hmem hfresh hnd hbound
    have hkey : c.get_bls_public_g2 v.author ∈ s.sorted_keys := hmem v (by simp)
    obtain ⟨idx, hbs, hidxlen, hidxval⟩ :=
      binarySearch_spec s.sorted_keys (c.get_bls_public_g2 v.author) hsort hkey
    have hchunk : idx / 128 < s.pk_bit_vec.length := by omega
    have hused : v.author ∉ s.used := hfresh v (by simp)
    have happ := votes_append_eq aggregate_sign s v c cl idx hused hbs hchunk
    have hmem2 : ∀ u ∈ rest, c.get_bls_public_g2 u.author ∈ s.sorted_keys :=
      fun u hu => hmem u (by simp [hu])
    have hfresh2 : ∀ u ∈ rest, u.author ∉ (appendPost aggregate_sign c cl s v idx).used := by
      intro u hu
      simp only [appendPost, List.mem_cons]
      rintro (heq | hmemu)
      · simp [List.nodup_cons] at hnd
        exact hnd.1 u hu heq
      · exact hfresh u (by simp [hu]) hmemu
    have hnd2 : (rest.map fun v => v.author).Nodup := by
      simp [List.nodup_cons] at hnd
      exact hnd.2
    have hlen2 : (appendPost aggregate_sign c cl s v idx).sorted_keys.length ≤
        128 * (appendPost aggregate_sign c cl s v idx).pk_bit_vec.length := by
      simpa [appendPost, bitvecClear] using hlen
    rw [committeeWeightSum_cons] at hbound
    have h2Q := total_lt_two_quorum c
    by_cases hcond : c.quorum_threshold ≤ s.committee_weight + c.stake v.author ∧
        cl.validity_threshold ≤ s.clan_weight + clanAdd cl v.author
    · rw [if_pos hcond] at happ
      cases emitted
      · -- first emission; afterwards the committee weight restarts at zero
        have hb2 : s.committee_weight + (c.stake v.author + committeeWeightSum c rest) ≤
            c.total_stake := hbound
        have hrec := ih { appendPost aggregate_sign c cl s v idx with committee_weight := 0 }
          true hsort hlen2 hmem2 hfresh2 hnd2 (by
            show 0 + committeeWeightSum c rest ≤ c.total_stake - c.quorum_threshold
            omega)
        have hrec2 : (runVotes aggregate_sign c cl
            { appendPost aggregate_sign c cl s v idx with committee_weight := 0 } rest).1.countP
              isEmission ≤ 0 := hrec
        show (runVotes aggregate_sign c cl s (v :: rest)).1.countP isEmission ≤ 1
        simp only [runVotes, happ, List.countP_cons]
        have he : isEmission (some (Except.ok (some ⟨v.id, v.round, v.origin,
            ((appendPost aggregate_sign c cl s v idx).pk_bit_vec,
             (appendPost aggregate_sign c cl s v idx).agg_sign)⟩))) = true := rfl
        rw [he]
        show (runVotes aggregate_sign c cl
            { appendPost aggregate_sign c cl s v idx with committee_weight := 0 } rest).1.countP
              isEmission + 1 ≤ 1
        omega
      · -- a second emission is impossible: the remaining stake is below Q
        exfalso
        have hb2 : s.committee_weight + (c.stake v.author + committeeWeightSum c rest) ≤
            c.total_stake - c.quorum_threshold := hbound
        omega
    · rw [if_neg hcond] at happ
      have hrec := ih (appendPost aggregate_sign c cl s v idx) emitted hsort hlen2 hmem2
        hfresh2 hnd2 (by
          have hw : (appendPost aggregate_sign c cl s v idx).committee_weight =
              s.committee_weight + c.stake v.author := rfl
          rw [hw]
          cases emitted
          · have hb2 : s.committee_weight + (c.stake v.author + committeeWeightSum c rest) ≤
                c.total_stake := hbound
            show _ ≤ c.total_stake
            omega
          · have hb2 : s.committee_weight + (c.stake v.author + committeeWeightSum c rest) ≤
                c.total_stake - c.quorum_threshold := hbound
            show _ ≤ c.total_stake - c.quorum_threshold
            omega)
      simp only [runVotes, happ, List.countP_cons]
      have he : isEmission (some (Except.ok none)) = false := rfl
      rw [he]
      simpa using hrec

/-- C2: with each committee authority voting at most once (and the quorum
threshold `Q = ⌈2T/3⌉ + 1` of the committee model), a `VotesAggregator`
emits at most one certificate over any run: after the first emission the
committee weight restarts at zero and can never reach `Q` again. -/
theorem votesAggregator_emits_at_most_once
    (aggregate_sign : SignatureShareG1 → SignatureShareG1 → SignatureShareG1)
    (c : Committee) (cl : Clan) (keys : List PublicKeyShareG2) (N : Nat)
    (votes : List Vote)
    (hsort : keys.Pairwise (· < ·)) (hN : keys.length = N)
    (hmem : ∀ v ∈ votes, c.get_bls_public_g2 v.author ∈ keys)
    (hnd : (votes.map fun v => v.author).Nodup) :
    (runVotes aggregate_sign c cl (VotesAggregator.new keys N) votes).1.countP isEmission
      ≤ 1 := by
  have hle : committeeWeightSum c votes ≤ c.total_stake := by
    have h := stake_sum_le_total c (votes.map fun v => v.author) hnd
    rw [List.map_map] at h
    exact h
  have hbound : (VotesAggregator.new keys N).committee_weight + committeeWeightSum c votes ≤
      cond false (c.total_stake - c.quorum_threshold) c.total_stake := by
    show 0 + committeeWeightSum c votes ≤ c.total_stake
    omega
  simpa using runVotes_emissions_general aggregate_sign c cl votes
    (VotesAggregator.new keys N) false hsort
    (by simp only [VotesAggregator.new, List.length_replicate]; omega)
    hmem (by simp [VotesAggregator.new]) hnd hbound

theorem votesAggregator_emits_at_most_once_witness :
    ((wVotes.map fun v => v.author).Nodup) ∧
    (runVotes wAggSign wCommittee wClan (VotesAggregator.new wKeys 4) wVotes).1.countP
      isEmission ≤ 1 :=
  ⟨by decide,
   votesAggregator_emits_at_most_once wAggSign wCommittee wClan wKeys 4 wVotes
     (by decide) (by decide) (by decide) (by decide)⟩

/-! ## Bitmap reasoning for the contributor bit vector -/

theorem getD_set_self (l : List Nat) (i x : Nat) (h : i < l.length) :
    (l.set i x).getD i 0 = x := by
  rw [List.getD_eq_getElem _ 0 (by simpa using h)]
  exact List.getElem_set_self _

theorem getD_set_ne (l : List Nat) (i j x : Nat) (hne : i ≠ j) :
    (l.set i x).getD j 0 = l.getD j 0 := by
  by_cases hj : j < l.length
  · rw [List.getD_eq_getElem _ 0 (by simpa using hj), List.getD_eq_getElem _ 0 hj]
    exact List.getElem_set_ne hne _
  · rw [List.getD_eq_default _ 0 (by simpa using Nat.le_of_not_lt hj),
      List.getD_eq_default _ 0 (Nat.le_of_not_lt hj)]

theorem clearBit_testBit (w bit b : Nat) (hb : b < 128) (hbit : bit < 128) :
    (clearBit w bit).testBit b = (w.testBit b && !(decide (b = bit))) := by
  unfold clearBit
  rw [Nat.testBit_and, Nat.testBit_xor, Nat.testBit_two_pow_sub_one,
    show (1 <<< bit) = 2 ^ bit by simp [Nat.shiftLeft_eq], Nat.testBit_two_pow]
  by_cases heq : b = bit
  · subst heq
    simp [hb]
  · have : ¬ bit = b := fun h => heq h.symm
    simp [hb, heq, this]

theorem bitmapTest_bitvecClear (bv : List Nat) (idx j : Nat)
    (hidx : idx < 128 * bv.length) :
    bitmapTest (bitvecClear bv idx) j = (bitmapTest bv j && !(decide (j = idx))) := by
  unfold bitmapTest bitvecClear
  have hwlt : idx / 128 < bv.length := by omega
  by_cases hw : j / 128 = idx / 128
  · rw [hw, getD_set_self bv (idx / 128) _ hwlt]
    rw [clearBit_testBit _ _ _ (by omega) (by omega)]
    have hiff : j % 128 = idx % 128 ↔ j = idx := by omega
    by_cases hm : j % 128 = idx % 128
    · simp [hm, hiff.mp hm, hw]
    · have : ¬ j = idx := fun h => hm (hiff.mpr h)
      simp [hm, this, hw]
  · rw [getD_set_ne bv (idx / 128) (j / 128) _ (fun h => hw h.symm)]
    have : ¬ j = idx := fun h => hw (by rw [h])
    simp [this]

theorem bitmapTest_replicate_ones (words j : Nat) (hj : j < 128 * words) :
    bitmapTest (List.replicate words (2 ^ 128 - 1)) j = true := by
  unfold bitmapTest
  have hw : j / 128 < words := by omega
  rw [List.getD_eq_getElem _ 0 (by simpa using hw), List.getElem_replicate,
    Nat.testBit_two_pow_sub_one]
  simp
  omega

theorem sorted_get_inj (l : List PublicKeyShareG2) (hsort : l.Pairwise (· < ·))
    (i j : Nat) (hi : i < l.length) (hj : j < l.length)
    (h : l.get ⟨i, hi⟩ = l.get ⟨j, hj⟩) : i = j := by
  apply sorted_getElem_inj l hsort i j hi hj
  simpa [List.get_eq_getElem] using h

theorem runVotes_bitmap_general
    (aggregate_sign : SignatureShareG1 → SignatureShareG1 → SignatureShareG1)
    (c : Committee) (cl : Clan) (keys : List PublicKeyShareG2)
    (hsort : keys.Pairwise (· < ·)) :
    ∀ (vs : List Vote) (s : VotesAggregator) (consumed : List Vote),
      s.sorted_keys = keys →
      keys.length ≤ 128 * s.pk_bit_vec.length →
      (∀ v ∈ vs, c.get_bls_public_g2 v.author ∈ keys) →
      (∀ v ∈ vs, v.author ∉ s.used) →
      (vs.map fun v => v.author).Nodup →
      (∀ j, j < 128 * s.pk_bit_vec.length →
        (bitmapTest s.pk_bit_vec j = false ↔
          ∃ hj : j < keys.length, ∃ u ∈ consumed,
            keys.get ⟨j, hj⟩ = c.get_bls_public_g2 u.author)) →
      ∀ i, i < vs.length → ∀ cert,
        (runVotes aggregate_sign c cl s vs).1.get? i = some (some (.ok (some cert))) →
        cert.votes.1.length = s.pk_bit_vec.length ∧
        (∀ j, j < 128 * s.pk_bit_vec.length →
          (bitmapTest cert.votes.1 j = false ↔
            ∃ hj : j < keys.length, ∃ u ∈ consumed ++ vs.take (i + 1),
              keys.get ⟨j, hj⟩ = c.get_bls_public_g2 u.author)) := by
  intro vs
  induction vs with
  | nil => intro s consumed _ _ _ _ _ _ i hi; exact absurd hi (by simp)
  | cons v rest ih =>
    intro s consumed hkeys hlen hmem hfresh hnd hinv i hi cert hcert
    have hkey : c.get_bls_public_g2 v.author ∈ s.sorted_keys := by
      rw [hkeys]; exact hmem v (by simp)
    have hsort2 : s.sorted_keys.Pairwise (· < ·) := by rw [hkeys]; exact hsort
    obtain ⟨idx, hbs, hidxlen, hidxval⟩ :=
      binarySearch_spec s.sorted_keys (c.get_bls_public_g2 v.author) hsort2 hkey
    have hidxlen2 : idx < keys.length := by rw [← hkeys]; exact hidxlen
    have hidxval2 : keys.getD idx 0 = c.get_bls_public_g2 v.author := by
      rw [← hkeys]; exact hidxval
    have hchunk : idx / 128 < s.pk_bit_vec.length := by omega
    have hidx128 : idx < 128 * s.pk_bit_vec.length := by omega
    have hused : v.author ∉ s.used := hfresh v (by simp)
    have happ := votes_append_eq aggregate_sign s v c cl idx hused hbs hchunk
    have hkeyeq : keys.get ⟨idx, hidxlen2⟩ = c.get_bls_public_g2 v.author := by
      rw [List.get_eq_getElem, ← List.getD_eq_getElem keys 0 hidxlen2]
      exact hidxval2
    -- the bitmap invariant after folding in this vote
    have hinv2 : ∀ j, j < 128 * s.pk_bit_vec.length →
        (bitmapTest (bitvecClear s.pk_bit_vec idx) j = false ↔
          ∃ hj : j < keys.length, ∃ u ∈ consumed ++ [v],
            keys.get ⟨j, hj⟩ = c.get_bls_public_g2 u.author) := by
      intro j hj
      rw [bitmapTest_bitvecClear s.pk_bit_vec idx j hidx128]
      by_cases hji : j = idx
      · subst hji
        constructor
        · intro _
          exact ⟨hidxlen2, v, by simp, hkeyeq⟩
        · intro _
          simp
      · constructor
        · intro h
          have hbase : bitmapTest s.pk_bit_vec j = false := by
            simpa [hji] using h
          obtain ⟨hjlen, u, hu, hku⟩ := (hinv j hj).mp hbase
          exact ⟨hjlen, u, by simp [hu], hku⟩
        · rintro ⟨hjlen, u, hu, hku⟩
          rcases List.mem_append.mp hu with hu1 | hu2
          · have := (hinv j hj).mpr ⟨hjlen, u, hu1, hku⟩
            simp [this]
          · have huv : u = v := by simpa using hu2
            subst huv
            exact absurd (sorted_get_inj keys hsort j idx hjlen hidxlen2
              (by rw [hku, hkeyeq])) hji
    have hmem2 : ∀ u ∈ rest, c.get_bls_public_g2 u.author ∈ keys :=
      fun u hu => hmem u (by simp [hu])
    have hnd2 : (rest.map fun v => v.author).Nodup := by
      simp [List.nodup_cons] at hnd
      exact hnd.2
    rcases i with _ | i
    · -- the queried call is this one
      by_cases hcond : c.quorum_threshold ≤ s.committee_weight + c.stake v.author ∧
          cl.validity_threshold ≤ s.clan_weight + clanAdd cl v.author
      · rw [if_pos hcond] at happ
        simp only [runVotes, happ, List.get?_cons_zero, Option.some.injEq,
          Except.ok.injEq] at hcert
        subst hcert
        constructor
        · show (bitvecClear s.pk_bit_vec idx).length = s.pk_bit_vec.length
          simp [bitvecClear]
        · intro j hj
          have := hinv2 j hj
          simpa using this
      · rw [if_neg hcond] at happ
        simp only [runVotes, happ, List.get?_cons_zero, Option.some.injEq,
          Except.ok.injEq] at hcert
        cases hcert
    · -- the queried call is in the tail: recurse through the post state
      have hi2 : i < rest.length := by simpa using hi
      by_cases hcond : c.quorum_threshold ≤ s.committee_weight + c.stake v.author ∧
          cl.validity_threshold ≤ s.clan_weight + clanAdd cl v.author
      · rw [if_pos hcond] at happ
        simp only [runVotes, happ, List.get?_cons_succ] at hcert
        have hfresh2 : ∀ u ∈ rest,
            u.author ∉ ({ appendPost aggregate_sign c cl s v idx with
              committee_weight := 0 } : VotesAggregator).used := by
          intro u hu
          simp only [appendPost, List.mem_cons]
          rintro (heq | hmemu)
          · simp [List.nodup_cons] at hnd
            exact hnd.1 u hu heq
          · exact hfresh u (by simp [hu]) hmemu
        have hres := ih { appendPost aggregate_sign c cl s v idx with committee_weight := 0 }
          (consumed ++ [v]) (by simp [appendPost, hkeys])
          (by simpa [appendPost, bitvecClear] using hlen)
          hmem2 hfresh2 hnd2
          (by
            intro j hj
            have hj2 : j < 128 * s.pk_bit_vec.length := by
              simpa [appendPost, bitvecClear] using hj
            simpa [appendPost, bitvecClear] using hinv2 j hj2)
          i hi2 cert hcert
        constructor
        · have h1 := hres.1
          simpa [appendPost, bitvecClear] using h1
        · intro j hj
          have hj2 : j < 128 * ({ appendPost aggregate_sign c cl s v idx with
              committee_weight := 0 } : VotesAggregator).pk_bit_vec.length := by
            simpa [appendPost, bitvecClear] using hj
          have h2 := hres.2 j hj2
          rw [h2]
          constructor
          · rintro ⟨hjlen, u, hu, hku⟩
            exact ⟨hjlen, u, by simpa [List.append_assoc] using hu, hku⟩
          · rintro ⟨hjlen, u, hu, hku⟩
            exact ⟨hjlen, u, by simpa [List.append_assoc] using hu, hku⟩
      · rw [if_neg hcond] at happ
        simp only [runVotes, happ, List.get?_cons_succ] at hcert
        have hfresh2 : ∀ u ∈ rest,
            u.author ∉ (appendPost aggregate_sign c cl s v idx).used := by
          intro u hu
          simp only [appendPost, List.mem_cons]
          rintro (heq | hmemu)
          · simp [List.nodup_cons] at hnd
            exact hnd.1 u hu heq
          · exact hfresh u (by simp [hu]) hmemu
        have hres := ih (appendPost aggregate_sign c cl s v idx)
          (consumed ++ [v]) (by simp [appendPost, hkeys])
          (by simpa [appendPost, bitvecClear] using hlen)
          hmem2 hfresh2 hnd2
          (by
            intro j hj
            have hj2 : j < 128 * s.pk_bit_vec.length := by
              simpa [appendPost, bitvecClear] using hj
            simpa [appendPost, bitvecClear] using hinv2 j hj2)
          i hi2 cert hcert
        constructor
        · have h1 := hres.1
          simpa [appendPost, bitvecClear] using h1
        · intro j hj
          have hj2 : j < 128 * (appendPost aggregate_sign c cl s v idx).pk_bit_vec.length := by
            simpa [appendPost, bitvecClear] using hj
          have h2 := hres.2 j hj2
          rw [h2]
          constructor
          · rintro ⟨hjlen, u, hu, hku⟩
            exact ⟨hjlen, u, by simpa [List.append_assoc] using hu, hku⟩
          · rintro ⟨hjlen, u, hu, hku⟩
            exact ⟨hjlen, u, by simpa [List.append_assoc] using hu, hku⟩

/-- C3: the contributor bitmap of a `VotesAggregator` starts as
`⌈N/128⌉` all-ones `u128` words; every successful `append` clears exactly
the bit indexed by the position of the author's BLS G2 key in the sorted
key list; and a certificate emitted at call `i` carries the bitmap whose
cleared bits are exactly the positions of the keys of the first `i+1`
authors, all other bits still set. -/
theorem votesAggregator_bitmap_spec
    (aggregate_sign : SignatureShareG1 → SignatureShareG1 → SignatureShareG1)
    (c : Committee) (cl : Clan) (keys : List PublicKeyShareG2) (N : Nat)
    (votes : List Vote)
    (hsort : keys.Pairwise (· < ·)) (hN : keys.length = N)
    (hmem : ∀ v ∈ votes, c.get_bls_public_g2 v.author ∈ keys)
    (hnd : (votes.map fun v => v.author).Nodup) :
    (VotesAggregator.new keys N).pk_bit_vec =
      List.replicate ((N + 127) / 128) (2 ^ 128 - 1) ∧
    (∀ (s : VotesAggregator) (v : Vote) (r : Except DagError (Option Certificate))
        (s2 : VotesAggregator),
      s.sorted_keys = keys → keys.length ≤ 128 * s.pk_bit_vec.length →
      v.author ∉ s.used → c.get_bls_public_g2 v.author ∈ keys →
      s.append aggregate_sign v c cl = some (r, s2) →
      ∃ idx, ∃ hidx : idx < keys.length,
        keys.get ⟨idx, hidx⟩ = c.get_bls_public_g2 v.author ∧
        ∀ j, j < 128 * s.pk_bit_vec.length →
          bitmapTest s2.pk_bit_vec j =
            (bitmapTest s.pk_bit_vec j && !(decide (j = idx)))) ∧
    (∀ i, i < votes.length → ∀ cert,
      (runVotes aggregate_sign c cl (VotesAggregator.new keys N) votes).1.get? i =
        some (some (.ok (some cert))) →
      cert.votes.1.length = (N + 127) / 128 ∧
      (∀ j, j < 128 * ((N + 127) / 128) →
        (bitmapTest cert.votes.1 j = false ↔
          ∃ hj : j < keys.length, ∃ u ∈ votes.take (i + 1),
            keys.get ⟨j, hj⟩ = c.get_bls_public_g2 u.author))) := by
  refine ⟨rfl, ?_, ?_⟩
  · intro s v r s2 hkeys hlen hus hmemv happeq
    have hkey : c.get_bls_public_g2 v.author ∈ s.sorted_keys := by rw [hkeys]; exact hmemv
    have hsort2 : s.sorted_keys.Pairwise (· < ·) := by rw [hkeys]; exact hsort
    obtain ⟨idx, hbs, hidxlen, hidxval⟩ :=
      binarySearch_spec s.sorted_keys (c.get_bls_public_g2 v.author) hsort2 hkey
    have hidxlen2 : idx < keys.length := by rw [← hkeys]; exact hidxlen
    have hidxval2 : keys.getD idx 0 = c.get_bls_public_g2 v.author := by
      rw [← hkeys]; exact hidxval
    have hchunk : idx / 128 < s.pk_bit_vec.length := by omega
    have hidx128 : idx < 128 * s.pk_bit_vec.length := by omega
    have happ := votes_append_eq aggregate_sign s v c cl idx hus hbs hchunk
    have hkeyeq : keys.get ⟨idx, hidxlen2⟩ = c.get_bls_public_g2 v.author := by
      rw [List.get_eq_getElem, ← List.getD_eq_getElem keys 0 hidxlen2]
      exact hidxval2
    refine ⟨idx, hidxlen2, hkeyeq, ?_⟩
    intro j hj
    rw [happ] at happeq
    have hs2 : s2.pk_bit_vec = bitvecClear s.pk_bit_vec idx := by
      by_cases hcond : c.quorum_threshold ≤ s.committee_weight + c.stake v.author ∧
          cl.validity_threshold ≤ s.clan_weight + clanAdd cl v.author
      · rw [if_pos hcond] at happeq
        cases happeq
        rfl
      · rw [if_neg hcond] at happeq
        cases happeq
        rfl
    rw [hs2]
    exact bitmapTest_bitvecClear s.pk_bit_vec idx j hidx128
  · intro i hi cert hcert
    have hres := runVotes_bitmap_general aggregate_sign c cl keys hsort votes
      (VotesAggregator.new keys N) [] rfl
      (by simp only [VotesAggregator.new, List.length_replicate]; omega)
      hmem (by simp [VotesAggregator.new]) hnd
      (by
        intro j hj
        have hj2 : j < 128 * ((N + 127) / 128) := by
          simpa [VotesAggregator.new] using hj
        constructor
        · intro hfalse
          rw [show (VotesAggregator.new keys N).pk_bit_vec =
            List.replicate ((N + 127) / 128) (2 ^ 128 - 1) from rfl] at hfalse
          rw [bitmapTest_replicate_ones ((N + 127) / 128) j hj2] at hfalse
          cases hfalse
        · rintro ⟨hjlen, u, hu, _⟩
          exact absurd hu (by simp))
      i hi cert hcert
    constructor
    · have h1 := hres.1
      simpa [VotesAggregator.new] using h1
    · intro j hj
      have hj2 : j < 128 * (VotesAggregator.new keys N).pk_bit_vec.length := by
        simpa [VotesAggregator.new] using hj
      have h2 := hres.2 j hj2
      rw [h2]
      constructor
      · rintro ⟨hjlen, u, hu, hku⟩
        exact ⟨hjlen, u, by simpa using hu, hku⟩
      · rintro ⟨hjlen, u, hu, hku⟩
        exact ⟨hjlen, u, by simpa using hu, hku⟩

theorem votesAggregator_bitmap_spec_witness :
    ((wVotes.map fun v => v.author).Nodup ∧
      (runVotes wAggSign wCommittee wClan (VotesAggregator.new wKeys 4) wVotes).1.get? 3 =
        some (some (.ok (some ⟨[9], 1, [0], ([2 ^ 128 - 16], 28)⟩)))) ∧
    ((⟨[9], 1, [0], ([2 ^ 128 - 16], 28)⟩ : Certificate).votes.1.length = (4 + 127) / 128 ∧
      (∀ j, j < 128 * ((4 + 127) / 128) →
        (bitmapTest (⟨[9], 1, [0], ([2 ^ 128 - 16], 28)⟩ : Certificate).votes.1 j = false ↔
          ∃ hj : j < wKeys.length, ∃ u ∈ wVotes.take (3 + 1),
            wKeys.get ⟨j, hj⟩ = wCommittee.get_bls_public_g2 u.author))) :=
  ⟨⟨by decide, by decide⟩,
   (votesAggregator_bitmap_spec wAggSign wCommittee wClan wKeys 4 wVotes
      (by decide) (by decide) (by decide) (by decide)).2.2 3 (by decide)
     ⟨[9], 1, [0], ([2 ^ 128 - 16], 28)⟩ (by decide)⟩

/-- C9: for each of the three erroring aggregators, the first `append` from
an author returns `Ok` (for `VotesAggregator` under the no-panic
preconditions: key present in the sorted key list, list sorted, bitmap wide
enough), while a repeated author yields `Err(AuthorityReuse(author))` and
leaves the aggregator state exactly unchanged. -/
theorem aggregators_authority_reuse
    (aggregate_sign : SignatureShareG1 → SignatureShareG1 → SignatureShareG1) :
    (∀ (s : VotesAggregator) (v : Vote) (c : Committee) (cl : Clan),
      v.author ∉ s.used →
      s.sorted_keys.Pairwise (· < ·) →
      s.sorted_keys.length ≤ 128 * s.pk_bit_vec.length →
      c.get_bls_public_g2 v.author ∈ s.sorted_keys →
      ∃ r s2, s.append aggregate_sign v c cl = some (.ok r, s2)) ∧
    (∀ (s : VotesAggregator) (v : Vote) (c : Committee) (cl : Clan),
      v.author ∈ s.used →
      s.append aggregate_sign v c cl = some (.error (.AuthorityReuse v.author), s)) ∧
    (∀ (s : TimeoutAggregator) (t : Timeout) (c : Committee),
      t.author ∉ s.used → ∃ r s2, s.append t c = (.ok r, s2)) ∧
    (∀ (s : TimeoutAggregator) (t : Timeout) (c : Committee),
      t.author ∈ s.used → s.append t c = (.error (.AuthorityReuse t.author), s)) ∧
    (∀ (s : NoVoteAggregator) (m : NoVoteMsg) (c : Committee),
      m.author ∉ s.used → ∃ r s2, s.append m c = (.ok r, s2)) ∧
    (∀ (s : NoVoteAggregator) (m : NoVoteMsg) (c : Committee),
      m.author ∈ s.used → s.append m c = (.error (.AuthorityReuse m.author), s)) := by
  refine ⟨?_, ?_, ?_, ?_, ?_, ?_⟩
  · intro s v c cl hus hsort hlen hkey
    obtain ⟨idx, hbs, hidxlen, hidxval⟩ :=
      binarySearch_spec s.sorted_keys (c.get_bls_public_g2 v.author) hsort hkey
    have hchunk : idx / 128 < s.pk_bit_vec.length := by omega
    rw [votes_append_eq aggregate_sign s v c cl idx hus hbs hchunk]
    split
    · exact ⟨_, _, rfl⟩
    · exact ⟨_, _, rfl⟩
  · intro s v c cl h
    simp only [VotesAggregator.append, hsInsert]
    rw [if_pos h]
  · intro s t c h
    simp only [TimeoutAggregator.append, hsInsert]
    rw [if_neg h]
    dsimp only
    split
    · exact ⟨_, _, rfl⟩
    · exact ⟨_, _, rfl⟩
  · intro s t c h
    simp only [TimeoutAggregator.append, hsInsert]
    rw [if_pos h]
  · intro s m c h
    simp only [NoVoteAggregator.append, hsInsert]
    rw [if_neg h]
    dsimp only
    split
    · exact ⟨_, _, rfl⟩
    · exact ⟨_, _, rfl⟩
  · intro s m c h
    simp only [NoVoteAggregator.append, hsInsert]
    rw [if_pos h]

theorem aggregators_authority_reuse_witness :
    (∃ r s2, VotesAggregator.append wAggSign (VotesAggregator.new wKeys 4)
      ⟨[9], 1, [0], [0], 7⟩ wCommittee wClan = some (.ok r, s2)) ∧
    (VotesAggregator.append wAggSign ⟨1, 1, [], [[0]], 7, [2 ^ 128 - 2], wKeys⟩
        ⟨[9], 1, [0], [0], 7⟩ wCommittee wClan =
      some (.error (.AuthorityReuse [0]), ⟨1, 1, [], [[0]], 7, [2 ^ 128 - 2], wKeys⟩)) ∧
    (∃ r s2, TimeoutAggregator.append TimeoutAggregator.new ⟨1, [0], 5⟩ wCommittee =
      (.ok r, s2)) ∧
    (TimeoutAggregator.append ⟨1, [([0], 5)], [[0]]⟩ ⟨1, [0], 5⟩ wCommittee =
      (.error (.AuthorityReuse [0]), ⟨1, [([0], 5)], [[0]]⟩)) ∧
    (∃ r s2, NoVoteAggregator.append NoVoteAggregator.new ⟨1, [0], 5⟩ wCommittee =
      (.ok r, s2)) ∧
    (NoVoteAggregator.append ⟨1, [([0], 5)], [[0]]⟩ ⟨1, [0], 5⟩ wCommittee =
      (.error (.AuthorityReuse [0]), ⟨1, [([0], 5)], [[0]]⟩)) :=
  ⟨(aggregators_authority_reuse wAggSign).1 (VotesAggregator.new wKeys 4)
      ⟨[9], 1, [0], [0], 7⟩ wCommittee wClan (by decide) (by decide) (by decide) (by decide),
   (aggregators_authority_reuse wAggSign).2.1 ⟨1, 1, [], [[0]], 7, [2 ^ 128 - 2], wKeys⟩
      ⟨[9], 1, [0], [0], 7⟩ wCommittee wClan (by decide),
   (aggregators_authority_reuse wAggSign).2.2.1 TimeoutAggregator.new ⟨1, [0], 5⟩
      wCommittee (by decide),
   (aggregators_authority_reuse wAggSign).2.2.2.1 ⟨1, [([0], 5)], [[0]]⟩ ⟨1, [0], 5⟩
      wCommittee (by decide),
   (aggregators_authority_reuse wAggSign).2.2.2.2.1 NoVoteAggregator.new ⟨1, [0], 5⟩
      wCommittee (by decide),
   (aggregators_authority_reuse wAggSign).2.2.2.2.2 ⟨1, [([0], 5)], [[0]]⟩ ⟨1, [0], 5⟩
      wCommittee (by decide)⟩

/-- C10 (counterexample): a vote whose author's BLS key is absent from the
sorted key list does not always panic: when the author was already used,
the duplicate check fires first and the call returns `AuthorityReuse`. -/
theorem votesAggregator_absent_key_no_panic_cex :
    cexCommittee.get_bls_public_g2 [0] ∉
      (⟨0, 0, [], [[0]], 0, [], []⟩ : VotesAggregator).sorted_keys ∧
    VotesAggregator.append wAggSign ⟨0, 0, [], [[0]], 0, [], []⟩ ⟨[], 0, [], [0], 0⟩
        cexCommittee ⟨[]⟩ =
      some (.error (.AuthorityReuse [0]), ⟨0, 0, [], [[0]], 0, [], []⟩) := by
  constructor
  · simp
  · decide

/-- C10 (amended): under a sorted key list and a wide-enough bitmap,
`VotesAggregator::append` never panics when the author's key (as returned by
`get_bls_public_g2`) occurs in the sorted key list; and for a not-yet-used
author whose key is absent, the call panics (the binary search `Err` is
unwrapped) instead of returning an error. -/
theorem votesAggregator_panic_characterization
    (aggregate_sign : SignatureShareG1 → SignatureShareG1 → SignatureShareG1)
    (s : VotesAggregator) (v : Vote) (c : Committee) (cl : Clan)
    (hsort : s.sorted_keys.Pairwise (· < ·))
    (hlen : s.sorted_keys.length ≤ 128 * s.pk_bit_vec.length) :
    (c.get_bls_public_g2 v.author ∈ s.sorted_keys →
      s.append aggregate_sign v c cl ≠ none) ∧
    (c.get_bls_public_g2 v.author ∉ s.sorted_keys → v.author ∉ s.used →
      s.append aggregate_sign v c cl = none) := by
  constructor
  · intro hkey
    by_cases hus : v.author ∈ s.used
    · have : s.append aggregate_sign v c cl =
          some (.error (.AuthorityReuse v.author), s) := by
        simp only [VotesAggregator.append, hsInsert]
        rw [if_pos hus]
      rw [this]
      exact Option.noConfusion
    · obtain ⟨idx, hbs, hidxlen, hidxval⟩ :=
        binarySearch_spec s.sorted_keys (c.get_bls_public_g2 v.author) hsort hkey
      have hchunk : idx / 128 < s.pk_bit_vec.length := by omega
      rw [votes_append_eq aggregate_sign s v c cl idx hus hbs hchunk]
      split
      · exact Option.noConfusion
      · exact Option.noConfusion
  · intro hkey hus
    have hnone := binarySearch_none s.sorted_keys (c.get_bls_public_g2 v.author) hkey
    simp only [VotesAggregator.append, hsInsert]
    rw [if_neg hus]
    dsimp only
    split
    · rfl
    · rename_i x id heq
      exfalso
      split at heq <;>
        (dsimp only at heq; rw [hnone] at heq; exact Option.noConfusion heq)

theorem votesAggregator_panic_characterization_witness :
    (wKeys.Pairwise (· < ·) ∧
      wKeys.length ≤ 128 * (VotesAggregator.new wKeys 4).pk_bit_vec.length ∧
      wCommittee.get_bls_public_g2 [0] ∈ wKeys) ∧
    VotesAggregator.append wAggSign (VotesAggregator.new wKeys 4) ⟨[9], 1, [0], [0], 7⟩
      wCommittee wClan ≠ none :=
  ⟨⟨by decide, by decide, by decide⟩,
   (votesAggregator_panic_characterization wAggSign (VotesAggregator.new wKeys 4)
      ⟨[9], 1, [0], [0], 7⟩ wCommittee wClan (by decide) (by decide)).1 (by decide)⟩

/-! ## The header digest formula (C6) -/

/-- Lexicographic byte-string comparison: the `Ord` used by Rust on `Digest`
arrays, hence the `BTreeMap`/`BTreeSet` iteration order of header payloads
and parents. -/
def bytesLe : List UInt8 → List UInt8 → Bool
  | [], _ => true
  | _ :: _, [] => false
  | x :: xs, y :: ys => x < y || (x == y && bytesLe xs ys)

/-- Propositional form of `bytesLe`. -/
def bytesLeP (a b : List UInt8) : Prop := bytesLe a b = true

instance : DecidableRel bytesLeP :=
  fun a b => inferInstanceAs (Decidable (bytesLe a b = true))

/-- Payload pairs ordered by their digest key, as in `BTreeMap<Digest, _>`. -/
def payloadLeP (p q : Digest × WorkerId) : Prop := bytesLeP p.1 q.1

instance : DecidableRel payloadLeP :=
  fun p q => inferInstanceAs (Decidable (bytesLe p.1 q.1 = true))

/-- The byte string described by the spec for the header digest: the
concatenation of the author, the little-endian round, each
`(payload digest, worker id)` pair in sorted order, and each parent digest
in sorted order. -/
def headerSpecBytes (h : Header) : List UInt8 :=
  h.author ++ toLeBytes 8 h.round ++
    ((h.payload.insertionSort payloadLeP).map fun p => p.1 ++ toLeBytes 4 p.2).flatten ++
    (h.parents.insertionSort bytesLeP).flatten

/-- C6: `Header::new` returns a header whose `id` is the header's digest,
namely the SHA-512 hash truncated to its first 32 bytes of the
concatenation of the author, the little-endian round, the payload pairs in
sorted order and the parent digests in sorted order (the inputs come from a
`BTreeMap`/`BTreeSet` and are therefore sorted). -/
theorem header_new_id_digest
    (author : PublicKey) (round : Round) (payload : List (Digest × WorkerId))
    (parents : List Digest) (timeout_cert : TimeoutCert) (no_vote_cert : NoVoteCert)
    (hp : List.Sorted payloadLeP payload) (hpar : List.Sorted bytesLeP parents) :
    (Header.new author round payload parents timeout_cert no_vote_cert).id =
      (sha512 (headerSpecBytes
        (Header.new author round payload parents timeout_cert no_vote_cert))).take 32 ∧
    (Header.new author round payload parents timeout_cert no_vote_cert).id =
      (Header.new author round payload parents timeout_cert no_vote_cert).digest := by
  constructor
  · have hbytes : headerSpecBytes
        (Header.new author round payload parents timeout_cert no_vote_cert) =
        headerHashBytes
          (Header.new author round payload parents timeout_cert no_vote_cert) := by
      unfold headerSpecBytes headerHashBytes
      rw [show (Header.new author round payload parents timeout_cert no_vote_cert).payload =
            payload from rfl,
          show (Header.new author round payload parents timeout_cert no_vote_cert).parents =
            parents from rfl,
          List.Sorted.insertionSort_eq hp, List.Sorted.insertionSort_eq hpar]
    rw [hbytes]
    rfl
  · rfl

theorem header_new_id_digest_witness :
    (List.Sorted payloadLeP [([3], 4), ([5], 6)] ∧
      List.Sorted bytesLeP [[7], [8]]) ∧
    ((Header.new [1] 2 [([3], 4), ([5], 6)] [[7], [8]] ⟨0, []⟩ ⟨0, []⟩).id =
      (sha512 (headerSpecBytes
        (Header.new [1] 2 [([3], 4), ([5], 6)] [[7], [8]] ⟨0, []⟩ ⟨0, []⟩))).take 32 ∧
    (Header.new [1] 2 [([3], 4), ([5], 6)] [[7], [8]] ⟨0, []⟩ ⟨0, []⟩).id =
      (Header.new [1] 2 [([3], 4), ([5], 6)] [[7], [8]] ⟨0, []⟩ ⟨0, []⟩).digest) :=
  ⟨⟨by decide, by decide⟩,
   header_new_id_digest [1] 2 [([3], 4), ([5], 6)] [[7], [8]] ⟨0, []⟩ ⟨0, []⟩
     (by decide) (by decide)⟩
